import Mathlib

/-
Verification of the move-tree engine of the jackstenglein/chess TypeScript
library (src/Chess.ts, src/History.ts, src/Pgn.ts, src/Header.ts) against its
natural-language specification.

The embedding is a shallow one:

* JavaScript objects `Move` live in an arena: each move node gets a numeric id,
  and each variation array (a JS array object, shared by reference between
  moves) gets a numeric id as well.  JS reference identity (`===` on objects
  and arrays) becomes id equality, and in-place array mutation becomes an
  update of the id-indexed store.
* The chess.js engine is an external collaborator (the spec's "Position
  Oracle"); it is modelled by an `Oracle` record of pure functions on FEN
  strings.  Concrete scenarios instantiate it with finite tables whose entries
  are real chess positions.
* JS strings are Lean `String`s; the JS string methods used by the source
  (`split`, `trim`, `join`, `parseInt`) are reimplemented below with JS
  semantics on the fragments the source exercises.
* Exceptions become `Except`/`Option` results; `try`/`catch` blocks become
  `match`es on those results.
* Loops whose termination in the source relies on the tree being well formed
  (the `do`/`while` walks in `isDescendant` and `promoteVariation`, and the
  recursion in rendering) take an explicit fuel argument, instantiated with a
  bound that suffices for every well-formed state.
-/

namespace JChess

/-! ## JS string primitives -/

/-- Whitespace test used by the JS regex `\s` on the characters this code base
actually produces. -/
def wsChar (c : Char) : Bool :=
  c == ' ' || c == '\t' || c == '\n' || c == '\r'

mutual

/-- Helper for `jsSplitWs`: reading a token, accumulator holds the reversed
characters read so far. -/
def splitWsGo : List Char → List Char → List String
  | [], acc => [⟨acc.reverse⟩]
  | c :: rest, acc =>
    if wsChar c then ⟨acc.reverse⟩ :: splitWsSkip rest
    else splitWsGo rest (c :: acc)

/-- Helper for `jsSplitWs`: inside a whitespace run. -/
def splitWsSkip : List Char → List String
  | [] => [⟨[]⟩]
  | c :: rest => if wsChar c then splitWsSkip rest else splitWsGo rest [c]

end

/-- JS `str.split(/\s+/)`: splits at whitespace runs; a leading run yields a
leading empty token and a trailing run a trailing empty token, as in JS. -/
def jsSplitWs (s : String) : List String :=
  splitWsGo s.data []

/-- Helper for `jsSplitChar`. -/
def splitChGo (sep : Char) : List Char → List Char → List String
  | [], acc => [⟨acc.reverse⟩]
  | c :: rest, acc =>
    if c == sep then ⟨acc.reverse⟩ :: splitChGo sep rest []
    else splitChGo sep rest (c :: acc)

/-- JS `str.split(sep)` for a one-character separator string: empty pieces are
preserved (`"a  b".split(' ') == ['a','','b']`). -/
def jsSplitChar (sep : Char) (s : String) : List String :=
  splitChGo sep s.data []

/-- Drop leading whitespace from a character list. -/
def dropLeadWs : List Char → List Char
  | [] => []
  | c :: rest => if wsChar c then dropLeadWs rest else c :: rest

/-- JS `str.trim()` (restricted to the whitespace characters of `wsChar`). -/
def jsTrim (s : String) : String :=
  ⟨(dropLeadWs ((dropLeadWs s.data).reverse)).reverse⟩

/-- JS `arr.join(sep)`. -/
def jsJoin (sep : String) : List String → String
  | [] => ""
  | [x] => x
  | x :: y :: rest => x ++ sep ++ jsJoin sep (y :: rest)

/-- Longest digit prefix of a character list. -/
def digitsPrefix : List Char → List Char
  | [] => []
  | c :: rest => if c.isDigit then c :: digitsPrefix rest else []

/-- JS `parseInt(s)` restricted to plain decimal digit strings: `none` stands
for `NaN`.  (Signs, leading whitespace and other radices never occur on the
inputs the source feeds to `parseInt`.) -/
def jsParseInt (s : String) : Option Nat :=
  match digitsPrefix s.data with
  | [] => none
  | c :: rest => some ((c :: rest).foldl (fun n d => n * 10 + (d.toNat - 48)) 0)

/-! ## Core data of the embedding

Move node ids and variation array ids are natural numbers.  `Candidate`
mirrors the TS union `CandidateMove = string | { from; to; promotion? }`. -/

/-- A candidate move handed to `move`/`validateMove`: either a SAN string or a
structured from/to/promotion triple. -/
inductive Candidate where
  | san (s : String)
  | obj (fromSq toSq : String) (promotion : Option String)
deriving DecidableEq, Repr

/-- The part of a chess.js `Move` object the library keeps
(`PickChessJsMove` in src/History.ts). -/
structure CJMove where
  color : String
  fromSq : String
  toSq : String
  piece : String
  captured : Option String := none
  promotion : Option String := none
  san : String
  lan : String
  before : String
  after : String
deriving DecidableEq, Repr

/-- Diagram comment (`DiagramComment` from the PGN parser), restricted to the
fields the library reads and writes; `rest` holds the arbitrary further
`[%name value]` command entries (`Object.entries` order = list order). -/
structure DComment where
  colorArrows : List String := []
  colorFields : List String := []
  comment : Option String := none
  clk : Option String := none
  rest : List (String × String) := []
deriving DecidableEq, Repr

/-- Metadata a parsed PGN move (`PgnMove` from the parser) carries into
`History.getMove`. -/
structure PMeta where
  drawOffer : Option Bool := none
  nags : Option (List String) := none
  commentMove : Option String := none
  commentAfter : Option String := none
  commentDiag : Option DComment := none
deriving DecidableEq, Repr

/-- Value of `PMeta` with every field absent, used by `validateMove`
(the source passes `{} as PgnMove`). -/
def emptyPMeta : PMeta := {}

/-- The synthetic SAN for a null move (`nullMoveNotation` in src/History.ts). -/
def nullMoveSan : String := "Z0"

/-- A move node of the tree (`Move` in src/History.ts).  `previous`/`next`
hold node ids, `variation` the id of the owning array (absent while the node
is detached, mirroring the field being `undefined` until it is assigned), and
`variations` the ids of the alternative sibling arrays. -/
structure MNode where
  core : CJMove
  ply : Nat
  fen : String
  uci : String
  previous : Option Nat := none
  next : Option Nat := none
  variation : Option Nat := none
  variations : List Nat := []
  isNullMove : Bool := false
  materialDifference : Int := 0
  drawOffer : Option Bool := none
  nags : Option (List String) := none
  commentMove : Option String := none
  commentAfter : Option String := none
  commentDiag : Option DComment := none
deriving DecidableEq, Repr

/-! ## Association-list arena -/

/-- Lookup in an association list keyed by node/array ids. -/
def alook {α : Type} : List (Nat × α) → Nat → Option α
  | [], _ => none
  | (k, v) :: rest, k' => if k = k' then some v else alook rest k'

/-- Pointwise update of the entry at a key (no-op when the key is absent;
the source only ever updates objects that exist). -/
def amod {α : Type} (l : List (Nat × α)) (k : Nat) (f : α → α) : List (Nat × α) :=
  match l with
  | [] => []
  | (k', v) :: rest => if k' = k then (k', f v) :: rest else (k', v) :: amod rest k f

/-- Arena of move nodes and variation arrays.  Allocation counters make ids
unique; JS object identity is id equality. -/
structure Arena where
  nodes : List (Nat × MNode) := []
  vars : List (Nat × List Nat) := []
  nextNode : Nat := 0
  nextVar : Nat := 0
deriving DecidableEq, Repr

/-- Allocate a fresh move node, returning its id. -/
def Arena.addNode (a : Arena) (n : MNode) : Nat × Arena :=
  (a.nextNode, { a with nodes := a.nodes ++ [(a.nextNode, n)], nextNode := a.nextNode + 1 })

/-- Allocate a fresh variation array, returning its id. -/
def Arena.addVar (a : Arena) (l : List Nat) : Nat × Arena :=
  (a.nextVar, { a with vars := a.vars ++ [(a.nextVar, l)], nextVar := a.nextVar + 1 })

/-- Update a node in place. -/
def Arena.modNode (a : Arena) (id : Nat) (f : MNode → MNode) : Arena :=
  { a with nodes := amod a.nodes id f }

/-- Update a variation array in place. -/
def Arena.modVar (a : Arena) (id : Nat) (f : List Nat → List Nat) : Arena :=
  { a with vars := amod a.vars id f }

/-- Read a node. -/
def Arena.node (a : Arena) (id : Nat) : Option MNode :=
  alook a.nodes id

/-- Read a variation array (the empty list for a dangling id, which the source
cannot produce). -/
def Arena.varr (a : Arena) (id : Nat) : List Nat :=
  (alook a.vars id).getD []

/-! ## Material difference and FEN helpers -/

/-- Piece values of `fenValues` in src/History.ts (`|| 0` for any other
character). -/
def fenValues (c : Char) : Int :=
  if c = 'p' then -1 else if c = 'n' then -3 else if c = 'b' then -3
  else if c = 'r' then -5 else if c = 'q' then -9
  else if c = 'P' then 1 else if c = 'N' then 3 else if c = 'B' then 3
  else if c = 'R' then 5 else if c = 'Q' then 9 else 0

/-- Function `getMaterialDifference` of src/History.ts: sums piece values over
the first FEN field (`fen.split(' ')[0]`). -/
def getMaterialDifference (fen : String) : Int :=
  (((jsSplitChar ' ' fen).headD "").data).foldl (fun acc c => acc + fenValues c) 0

/-- Side to move of a FEN (what `chess.turn()` reports after loading it). -/
def fenTurn (fen : String) : String :=
  ((jsSplitWs fen).get? 1).getD ""

/-- Function `switchTurn` of src/History.ts: flips the side to move and clears
the en passant field; the source throws when the FEN has fewer than two
tokens, modelled as `none` (every caller catches the exception). -/
def switchTurn (fen : String) : Option String :=
  let tokens := jsSplitWs fen
  if tokens.length < 2 then none
  else
    let tokens := tokens.set 1 (if tokens.get? 1 = some "w" then "b" else "w")
    let tokens := tokens.set 3 "-"
    some (jsJoin " " tokens)

/-! ## The position oracle (chess.js, an external collaborator) -/

/-- The chess.js surface the move-tree engine queries, as pure functions of
the loaded FEN.  `move fen candidate strict` returns the move object for a
legal move and `none` for an illegal one (chess.js throws there; every call
site of the source wraps the call in `try`).  `kingSquare fen color` is the
square holding the king of `color`, as found by the board scan in
`getNullMove`; `pieceAt` backs `chess.get`. -/
structure Oracle where
  move : String → Candidate → Bool → Option CJMove
  isCheck : String → Bool
  isGameOver : String → Bool
  kingSquare : String → String → Option String
  pieceAt : String → String → Option (String × String)

/-- Options record `MovesOptions` of src/Chess.ts (the fields `getNullMove`
reads). -/
structure MovesOptions where
  square : Option String := none
  piece : Option String := none
  disableNullMoves : Bool := false
deriving DecidableEq, Repr

/-- Function `getNullMove` of src/History.ts.  The board scan of the source is
represented by the oracle's king squares; a position missing a king makes the
source throw (`Invalid FEN for null move`), modelled as `none` since every
caller catches the exception.  The `chess.load(after)` side effect is
reflected in the returned `after` FEN, which callers thread as the next
position. -/
def getNullMove (o : Oracle) (fen : String) (opts : MovesOptions) : Option CJMove :=
  if opts.disableNullMoves || (match opts.piece with | some p => p ≠ "k" | none => false) then
    none
  else if o.isCheck fen || o.isGameOver fen then
    none
  else
    let before := fen
    let color := fenTurn fen
    match switchTurn fen with
    | none => none
    | some after =>
      match o.kingSquare fen color, o.kingSquare fen (if color == "w" then "b" else "w") with
      | some fromSq, some toSq =>
        if (match opts.square with | some sq => fromSq != sq | none => false) then none
        else
          some { color := color, fromSq := fromSq, toSq := toSq, piece := "k",
                 captured := none, promotion := none, san := "Z0", lan := "Z0",
                 before := before, after := after }
      | _, _ => none

/-- Function `isNullMove` of src/History.ts: the `Z0` SAN, or a structured
candidate moving the side-to-move's king onto the opposing king. -/
def isNullMove (o : Oracle) (cand : Candidate) (fen : String) : Bool :=
  match cand with
  | .san s => s == nullMoveSan
  | .obj f t _ =>
    match o.pieceAt fen f with
    | some (ty, col) =>
      if ty ≠ "k" || col ≠ fenTurn fen then false
      else
        match o.pieceAt fen t with
        | some (ty2, col2) => ty2 == "k" && col2 ≠ fenTurn fen
        | none => false
    | none => false

/-! ## Chess.com highlight conversion (src/History.ts) -/

/-- JS truthiness of an optional string (absent or empty is falsy). -/
def truthyS : Option String → Bool
  | none => false
  | some s => s ≠ ""

/-- Function `getColorFromChesscomKeypress` of src/History.ts. -/
def getColorFromChesscomKeypress (keypress : Option String) : String :=
  match keypress with
  | some "shift" => "G"
  | some "ctrl" => "Y"
  | some "alt" => "B"
  | some "none" => "R"
  | _ => "R"

/-- Shared body of the highlight/arrow loops of `convertChesscomHighlights`:
each comma-separated entry is split at semicolons; token 0 is the square (or
squares), token 2 the keypress. -/
def chesscomEntries (spec : String) : List String :=
  (jsSplitChar ',' spec).filterMap (fun h =>
    let toks := jsSplitChar ';' h
    let square := toks.headD ""
    let color := getColorFromChesscomKeypress (toks.get? 2)
    if square ≠ "" then some (color ++ square) else none)

/-- Lookup in the `rest` entries of a diagram comment. -/
def restLookup (l : List (String × String)) (k : String) : Option String :=
  match l.find? (fun p => p.1 == k) with
  | some p => some p.2
  | none => none

/-- Function `convertChesscomHighlights` of src/History.ts: folds Chess.com
`c_highlight`/`c_arrow` commands into `colorFields`/`colorArrows`. -/
def convertChesscomHighlights (cd : Option DComment) : Option DComment :=
  match cd with
  | none => none
  | some d =>
    let highlight := restLookup d.rest "c_highlight"
    let arrow := restLookup d.rest "c_arrow"
    if !truthyS highlight && !truthyS arrow then some d
    else
      let fields := if truthyS highlight then chesscomEntries (highlight.getD "") else []
      let arrows := if truthyS arrow then chesscomEntries (arrow.getD "") else []
      some { d with colorFields := d.colorFields ++ fields,
                    colorArrows := d.colorArrows ++ arrows }

/-! ## Building a move node -/

/-- Method `History.getMove` of src/History.ts: a detached node built from the
oracle's move object and the parsed move's metadata. -/
def getMove (ply : Nat) (pm : PMeta) (cj : CJMove) : MNode :=
  { core := cj
    previous := none
    next := none
    ply := ply
    fen := cj.after
    uci := cj.fromSq ++ cj.toSq ++ (cj.promotion.getD "")
    variation := none
    variations := []
    isNullMove := cj.san == nullMoveSan
    drawOffer := pm.drawOffer
    nags := pm.nags
    commentMove := pm.commentMove
    commentAfter := pm.commentAfter
    commentDiag := convertChesscomHighlights pm.commentDiag
    materialDifference := getMaterialDifference cj.after }

/-! ## Events and game state -/

/-- Event kinds of `EventType` in src/Chess.ts. -/
inductive EventType where
  | Initialized
  | IllegalMove
  | LegalMove
  | NewVariation
  | DeleteMove
  | UpdateComment
  | UpdateCommand
  | UpdateNags
  | UpdateDrawables
  | UpdateHeader
  | PromoteVariation
deriving DecidableEq, Repr

/-- An event as published to observers (the fields of `Event` in src/Chess.ts
that the modelled operations fill; `cand` is the source's `notation` field).
Observer dispatch itself is synchronous filtering by subscribed kinds; the
model records the published stream. -/
structure EventRec where
  type : EventType
  fen : Option String := none
  move : Option Nat := none
  previousMove : Option Nat := none
  mainlineMove : Option Nat := none
  variantRoot : Option Nat := none
  variantParent : Option Nat := none
  cand : Option Candidate := none
deriving DecidableEq, Repr

/-- The combined state of a `Chess` facade and its `Pgn`'s `History`:
the arena of nodes and arrays, the id of the mainline array
(`History.moves`), the setup data, the facade's `_currentMove`, the facade's
`disableNullMoves` flag, and the stream of published events. -/
structure GameState where
  arena : Arena
  mainVar : Nat
  setUpFen : String
  setUpPly : Nat
  setUpMaterialDifference : Int
  currentMove : Option Nat := none
  disableNullMoves : Bool := false
  events : List EventRec := []
deriving DecidableEq, Repr

/-- Read a node of the state. -/
def GameState.node (s : GameState) (id : Nat) : Option MNode :=
  s.arena.node id

/-- Read a variation array of the state. -/
def GameState.varr (s : GameState) (id : Nat) : List Nat :=
  s.arena.varr id

/-- Ply of a node (0 for a dangling id, which the source cannot produce). -/
def nodePly (s : GameState) (id : Nat) : Nat :=
  ((s.node id).map (fun n => n.ply)).getD 0

/-- Previous pointer of a node. -/
def nodePrev (s : GameState) (id : Nat) : Option Nat :=
  (s.node id).bind (fun n => n.previous)

/-- Next pointer of a node. -/
def nodeNextF (s : GameState) (id : Nat) : Option Nat :=
  (s.node id).bind (fun n => n.next)

/-- Variation array reference of a node. -/
def nodeVarF (s : GameState) (id : Nat) : Option Nat :=
  (s.node id).bind (fun n => n.variation)

/-- FEN after a node's move. -/
def nodeFen (s : GameState) (id : Nat) : String :=
  ((s.node id).map (fun n => n.fen)).getD ""

/-- SAN of a node. -/
def nodeSan (s : GameState) (id : Nat) : Option String :=
  (s.node id).map (fun n => n.core.san)

/-- Append an event to the published stream (`publishEvent`). -/
def publish (s : GameState) (e : EventRec) : GameState :=
  { s with events := s.events ++ [e] }

/-! ## History.validateMove and History.addMove -/

/-- Method `History.validateMove` of src/History.ts: resolves the position at
`previous` (or the setup FEN), queries the oracle, and returns a detached move
with ply `previous.ply + 1` (or the setup ply).  Illegal or malformed
candidates give `none`; the source's internal `try` makes the method total in
the candidate. -/
def History.validateMove (o : Oracle) (s : GameState) (cand : Candidate) (previous : Option Nat)
    (disableNullMoves strict : Bool) : Option MNode :=
  match previous with
  | some p =>
    match s.node p with
    | none => none
    | some pn =>
      match (if isNullMove o cand pn.fen then
               getNullMove o pn.fen { disableNullMoves := disableNullMoves }
             else o.move pn.fen cand strict) with
      | some cj => some (getMove (pn.ply + 1) emptyPMeta cj)
      | none => none
  | none =>
    match (if isNullMove o cand s.setUpFen then
             getNullMove o s.setUpFen { disableNullMoves := disableNullMoves }
           else o.move s.setUpFen cand strict) with
    | some cj => some (getMove s.setUpPly emptyPMeta cj)
    | none => none

/-- Method `History.addMove` of src/History.ts: validates, then links the new
move into the tree; an illegal candidate raises an error. -/
def History.addMove (o : Oracle) (s : GameState) (cand : Candidate) (previous : Option Nat)
    (disableNullMoves strict : Bool) : Except String (Nat × GameState) :=
  match History.validateMove o s cand previous disableNullMoves strict with
  | none => .error "Invalid move"
  | some m0 =>
    let m1 := { m0 with previous := previous }
    match previous with
    | some p =>
      match s.node p with
      | none => .error "Invalid move"
      | some pn =>
        match pn.next with
        | some pnext =>
          -- previous.next.variations.push([]); move.variation = that array; push move
          let (vId, a1) := s.arena.addVar []
          let a2 := a1.modNode pnext (fun n => { n with variations := n.variations ++ [vId] })
          let (id, a3) := a2.addNode { m1 with variation := some vId }
          let a4 := a3.modVar vId (fun l => l ++ [id])
          .ok (id, { s with arena := a4 })
        | none =>
          -- previous.next = move; move.variation = previous.variation; push move
          let (id, a1) := s.arena.addNode { m1 with variation := pn.variation }
          let a2 := a1.modNode p (fun n => { n with next := some id })
          let a3 := match pn.variation with
            | some v => a2.modVar v (fun l => l ++ [id])
            | none => a2
          .ok (id, { s with arena := a3 })
    | none =>
      if (s.varr s.mainVar).length > 0 then
        match (s.varr s.mainVar).head? with
        | some first =>
          -- this.moves[0].variations.push([]); move.variation = that array; push move
          let (vId, a1) := s.arena.addVar []
          let a2 := a1.modNode first (fun n => { n with variations := n.variations ++ [vId] })
          let (id, a3) := a2.addNode { m1 with variation := some vId }
          let a4 := a3.modVar vId (fun l => l ++ [id])
          .ok (id, { s with arena := a4 })
        | none => .error "Invalid move"
      else
        -- move.variation = this.moves; this.moves.push(move)
        let (id, a1) := s.arena.addNode { m1 with variation := some s.mainVar }
        let a2 := a1.modVar s.mainVar (fun l => l ++ [id])
        .ok (id, { s with arena := a2 })

/-! ## Parsed PGN move lists

The PGN grammar parser is external; its output (`PgnMove[]`, each move with a
list of variation move lists) is the input of `History.traverse`.  The nested
lists are encoded as a mutual inductive so that the structural recursions
below are accepted directly. -/

mutual

/-- A parsed move: its SAN text (`pgnMove.notation.notation` in the parser's
output), its metadata, and its variation lists. -/
inductive PgnTree where
  | mk (moveSan : String) (meta : PMeta) (variations : PgnLines)

/-- A list of variation lines. -/
inductive PgnLines where
  | nil
  | cons (l : PgnLine) (rest : PgnLines)

/-- A list of parsed moves (one line). -/
inductive PgnLine where
  | nil
  | cons (m : PgnTree) (rest : PgnLine)

end

mutual

/-- Size of a parsed move (moves plus lines, for the traverse termination
measure). -/
def PgnTree.size : PgnTree → Nat
  | .mk _ _ vs => 1 + vs.size

/-- Size of a list of lines. -/
def PgnLines.size : PgnLines → Nat
  | .nil => 0
  | .cons l rest => 1 + l.size + rest.size

/-- Size of a line. -/
def PgnLine.size : PgnLine → Nat
  | .nil => 0
  | .cons m rest => m.size + rest.size

end

/-- A work-stack frame of `History.traverse` (`TraverseStackItem` in
src/History.ts). -/
structure Frame where
  pgnMoves : PgnLine
  fen : String
  parent : Option Nat
  mainVariant : Option Nat
  ply : Nat

/-- Frames pushed for the variation lists of one parsed move, in the
chronological push order of the source. -/
def mkFrames (vs : PgnLines) (fen : String) (parent : Option Nat) (mainVariant : Nat)
    (ply : Nat) : List Frame :=
  match vs with
  | .nil => []
  | .cons l rest => ⟨l, fen, parent, some mainVariant, ply⟩ :: mkFrames rest fen parent mainVariant ply

/-- The body of the `for (const pgnMove of pgnMoves)` loop of
`History.traverse`, processing one frame's move list.  Arguments: remaining
moves, current position (the chess.js instance's state, which starts at the
frame's FEN and advances with each played move), previous move, ply, the id of
the frame's `variation` array, and the arena.  Returns the arena, the frames
pushed (chronological order), and whether the frame completed without an
illegal move (`false` plays the role of the thrown-and-caught error: the
partially built array stays unattached). -/
def processLine (o : Oracle) (strict : Bool) :
    PgnLine → String → Option Nat → Nat → Nat → Arena → Arena × List Frame × Bool
  | .nil, _, _, _, _, a => (a, [], true)
  | .cons (.mk nota meta vs) rest, curFen, prev, ply, varId, a =>
    let cj := if nota == nullMoveSan then getNullMove o curFen {} else o.move curFen (.san nota) strict
    match cj with
    | none => (a, [], false)
    | some m =>
      let node0 := getMove ply meta m
      let node1 := match prev with
        | some p => { node0 with previous := some p }
        | none => node0
      let (id, a1) := a.addNode node1
      -- if (previousMove && !previousMove.next) previousMove.next = move
      let a2 := match prev with
        | some p =>
          match a1.node p with
          | some pn => if pn.next = none then a1.modNode p (fun n => { n with next := some id }) else a1
          | none => a1
        | none => a1
      -- stack.push one frame per parsed variation, seeded from the position
      -- before this move (lastFen of the source equals curFen: the last
      -- element's fen when the array is non-empty, the frame's fen otherwise)
      let pushed := mkFrames vs curFen prev id ply
      -- move.variation = variation; variation.push(move)
      let a3 := a2.modNode id (fun n => { n with variation := some varId })
      let a4 := a3.modVar varId (fun l => l ++ [id])
      let r := processLine o strict rest m.after (some id) (ply + 1) varId a4
      (r.1, pushed ++ r.2.1, r.2.2)

/-- Measure of a frame stack: total parsed size plus frame count. -/
def frameMeasure (fs : List Frame) : Nat :=
  (fs.map (fun f => f.pgnMoves.size + 1)).sum

theorem frameMeasure_append (xs ys : List Frame) :
    frameMeasure (xs ++ ys) = frameMeasure xs + frameMeasure ys := by
  simp [frameMeasure]

theorem frameMeasure_reverse (xs : List Frame) :
    frameMeasure xs.reverse = frameMeasure xs := by
  simp [frameMeasure, List.map_reverse, List.sum_reverse]

theorem frameMeasure_mkFrames : ∀ (vs : PgnLines) (fen : String) (parent : Option Nat)
    (mv : Nat) (ply : Nat), frameMeasure (mkFrames vs fen parent mv ply) = vs.size
  | .nil, _, _, _, _ => by simp [mkFrames, frameMeasure, PgnLines.size]
  | .cons l rest, fen, parent, mv, ply => by
    have ih := frameMeasure_mkFrames rest fen parent mv ply
    simp [mkFrames, frameMeasure, PgnLines.size] at ih ⊢
    omega

theorem processLine_measure (o : Oracle) (strict : Bool) : ∀ (line : PgnLine)
    (curFen : String) (prev : Option Nat) (ply varId : Nat) (a : Arena),
      frameMeasure (processLine o strict line curFen prev ply varId a).2.1 ≤ line.size
  | .nil, curFen, prev, ply, varId, a => by simp [processLine, frameMeasure]
  | .cons (.mk nota meta vs) rest, curFen, prev, ply, varId, a => by
    simp only [processLine]
    cases hcj : (if nota == nullMoveSan then getNullMove o curFen {} else o.move curFen (.san nota) strict) with
    | none => simp [frameMeasure, PgnLine.size, PgnTree.size]
    | some cj =>
      simp only [PgnLine.size, PgnTree.size]
      rw [frameMeasure_append, frameMeasure_mkFrames]
      refine le_trans (Nat.add_le_add_left
        (processLine_measure o strict rest cj.after _ (ply + 1) varId _) _) ?_
      omega

/-- The `while (stack.length > 0)` loop of `History.traverse`, with explicit
fuel so that the kernel can evaluate it (`processStack` passes
`frameMeasure stack + 1`, which `processStackF_fuel` below shows is always
enough: the measure strictly decreases at every iteration).  `res` is the
array currently bound to the local `moves`, reassigned when a frame with no
`mainVariant` (only the initial frame) completes; a completed variation frame
unshifts its array into its `mainVariant.variations`; a failed frame changes
nothing (its `catch` only logs). -/
def processStackF (o : Oracle) (strict : Bool) :
    Nat → List Frame → Arena → Nat → Arena × Nat
  | 0, _, a, res => (a, res)
  | _ + 1, [], a, res => (a, res)
  | fuel + 1, f :: rest, a, res =>
    let p0 := a.addVar []
    let varId := p0.1
    let r := processLine o strict f.pgnMoves f.fen f.parent f.ply varId p0.2
    let a1 := r.1
    let ok := r.2.2
    let a2 := if ok then
        match f.mainVariant with
        | some mv => a1.modNode mv (fun n => { n with variations := varId :: n.variations })
        | none => a1
      else a1
    let res' := if ok && f.mainVariant = none then varId else res
    processStackF o strict fuel (r.2.1.reverse ++ rest) a2 res'

/-- The `while` loop of `History.traverse` with its canonical fuel. -/
def processStack (o : Oracle) (strict : Bool) (stack : List Frame) (a : Arena) (res : Nat) :
    Arena × Nat :=
  processStackF o strict (frameMeasure stack + 1) stack a res

/-- Fuel above the frame measure never runs out: the loop's result is the same
for every sufficient fuel, so `processStack`'s canonical fuel computes the
source's (well-founded) loop. -/
theorem processStackF_fuel (o : Oracle) (strict : Bool) :
    ∀ fuel stack a res, frameMeasure stack < fuel →
      processStackF o strict (fuel + 1) stack a res = processStackF o strict fuel stack a res := by
  intro fuel
  induction fuel with
  | zero => intro stack a res h; omega
  | succ n ih =>
    intro stack a res h
    match stack with
    | [] => simp [processStackF]
    | f :: rest =>
      simp only [processStackF]
      apply ih
      have h1 := processLine_measure o strict f.pgnMoves f.fen f.parent f.ply
        (Arena.addVar a []).1 (Arena.addVar a []).2
      rw [frameMeasure_append, frameMeasure_reverse]
      simp only [frameMeasure, List.map_cons, List.sum_cons] at h ⊢
      simp only [frameMeasure] at h1
      omega

/-- The `History` constructor of src/History.ts: computes the setup ply from
the FEN (`2 * fullmove - (1 if white to move)`), then builds the tree with
`traverse` (an empty parsed list just allocates the empty mainline).  A
malformed fullmove field makes JS compute `NaN` plies; the claims only use
well-formed FENs, and `getD 0` stands in for `NaN`. -/
def mkHistory (o : Oracle) (strict : Bool) (pgnMoves : PgnLine) (setUpFen : String) : GameState :=
  let toks := jsSplitWs setUpFen
  let colorToPlay := (toks.get? 1).getD ""
  let moveNumber := (jsParseInt ((toks.get? 5).getD "")).getD 0
  let setUpPly := 2 * moveNumber - (if colorToPlay == "w" then 1 else 0)
  match pgnMoves with
  | .nil =>
    let p := Arena.addVar {} []
    { arena := p.2, mainVar := p.1, setUpFen := setUpFen, setUpPly := setUpPly,
      setUpMaterialDifference := getMaterialDifference setUpFen }
  | .cons m rest =>
    let p := Arena.addVar {} []
    let r := processStack o strict [⟨.cons m rest, setUpFen, none, none, setUpPly⟩] p.2 p.1
    { arena := r.1, mainVar := r.2, setUpFen := setUpFen, setUpPly := setUpPly,
      setUpMaterialDifference := getMaterialDifference setUpFen }

/-! ## The Chess facade (src/Chess.ts) -/

/-- Method `Chess.firstMove`. -/
def Chess.firstMove (s : GameState) : Option Nat :=
  (s.varr s.mainVar).head?

/-- Method `Chess.lastMove`. -/
def Chess.lastMove (s : GameState) : Option Nat :=
  (s.varr s.mainVar).getLast?

/-- Method `Chess.nextMove`: `moves[0]` from the root, else `move.next`. -/
def Chess.nextMove (s : GameState) (m : Option Nat) : Option Nat :=
  match m with
  | none => Chess.firstMove s
  | some id => nodeNextF s id

/-- Method `Chess.seek`: loads the move's FEN (derived state in the model),
publishes a LegalMove event (whose `fen` field reads the facade's fen before
`_currentMove` is reassigned, exactly as the source does) and sets
`_currentMove`. -/
def Chess.seek (s : GameState) (m : Option Nat) : GameState :=
  let ev : EventRec :=
    { type := .LegalMove,
      fen := some (match s.currentMove with | some c => nodeFen s c | none => s.setUpFen),
      move := m,
      previousMove := s.currentMove,
      cand := (m.bind (nodeSan s)).map .san }
  { publish s ev with currentMove := m }

/-- Method `Chess.candidateMatches`: SAN string equality, or
from/to/promotion field equality for structured candidates. -/
def Chess.candidateMatches (s : GameState) (cand : Candidate) (m : Option Nat) : Bool :=
  match m with
  | none => false
  | some id =>
    match s.node id with
    | none => false
    | some n =>
      match cand with
      | .san str => n.core.san == str
      | .obj f t pr => n.core.fromSq == f && n.core.toSq == t && n.core.promotion == pr

/-- The loop of `Chess.getVariation` over `nextMove.variations`: empty
variants are skipped, the first matching variant's first move is returned. -/
def Chess.getVariationScan (s : GameState) (cand : Candidate) : List Nat → Option Nat
  | [] => none
  | v :: rest =>
    match (s.varr v).head? with
    | none => Chess.getVariationScan s cand rest
    | some mId =>
      if Chess.candidateMatches s cand (some mId) then some mId
      else Chess.getVariationScan s cand rest

/-- Method `Chess.getVariation`. -/
def Chess.getVariation (s : GameState) (cand : Candidate) (m : Option Nat) : Option Nat :=
  match Chess.nextMove s m with
  | none => none
  | some nm =>
    match s.node nm with
    | none => none
    | some n => Chess.getVariationScan s cand n.variations

/-- Method `Chess.isInMainline`: array identity of `move.variation` with
`History.moves` (null is in the mainline). -/
def Chess.isInMainline (s : GameState) (m : Option Nat) : Bool :=
  match m with
  | none => true
  | some id => nodeVarF s id == some s.mainVar

/-- The `do`/`while` walk of `Chess.isDescendant`, with fuel.  The source
relies on well-formedness for termination; `isDescendant` passes a fuel that
suffices for every well-formed state.  Corner cases where the source would
fault on an empty array (`moveRoot[0]` of an empty variant) are modelled as
`false`; they cannot arise in well-formed states. -/
def Chess.descWalk (s : GameState) (parentRoot : Option Nat) :
    Nat → Option Nat → Bool
  | 0, _ => false
  | fuel + 1, moveRoot =>
    if moveRoot == parentRoot then true
    else
      match moveRoot with
      | none => false
      | some v =>
        match (s.varr v).head? with
        | none => false
        | some rootId =>
          match (nodePrev s rootId).bind (fun p => nodeVarF s p) with
          | none => false
          | some v' =>
            match (s.varr v').head? with
            | none => false
            | some r' =>
              if Chess.isInMainline s (some r') then false
              else Chess.descWalk s parentRoot fuel (some v')

/-- Method `Chess.isDescendant`: identity, then the ply cut-off, then the
mainline shortcuts, then the variation-root walk. -/
def Chess.isDescendant (s : GameState) (parentId : Nat) (m : Option Nat) : Bool :=
  match m with
  | none => false
  | some c =>
    if c == parentId then true
    else if nodePly s c < nodePly s parentId then false
    else if Chess.isInMainline s (some parentId) then true
    else if Chess.isInMainline s (some c) then false
    else Chess.descWalk s (nodeVarF s parentId) (s.arena.nodes.length + 1) (nodeVarF s c)

/-- Method `Chess.move` with the option defaults of the source
(`existingOnly`/`skipSeek` default false, `disableNullMoves` defaults to the
instance's flag): returns the matching existing continuation, or adds the move
(possibly as a new variation), or returns null after publishing an IllegalMove
event; the `try`/`catch` around `addMove` is the `Except` match. -/
def Chess.move (o : Oracle) (s : GameState) (cand : Candidate) (previousMove : Option Nat)
    (strict existingOnly skipSeek : Bool) : Option Nat × GameState :=
  let nm := Chess.nextMove s previousMove
  if Chess.candidateMatches s cand nm then
    if skipSeek then (nm, s)
    else
      let s1 := publish s { type := .LegalMove, move := nm, previousMove := previousMove }
      (nm, Chess.seek s1 nm)
  else
    match Chess.getVariation s cand previousMove with
    | some ev =>
      if skipSeek then (some ev, s)
      else
        let s1 := publish s { type := .LegalMove, move := some ev, previousMove := previousMove }
        (some ev, Chess.seek s1 (some ev))
    | none =>
      if existingOnly then (none, s)
      else
        match History.addMove o s cand previousMove s.disableNullMoves strict with
        | .ok (id, s1) =>
          if skipSeek then (some id, s1)
          else
            let s2 := publish s1 { type := .NewVariation, move := some id, previousMove := previousMove }
            (some id, Chess.seek s2 (some id))
        | .error _ =>
          (none, publish s { type := .IllegalMove, cand := some cand, previousMove := previousMove })

/-- Method `Chess.validateMove`: pure delegation to `History.validateMove`,
returned together with the (unchanged) state to express the frame property. -/
def Chess.validateMove (o : Oracle) (s : GameState) (cand : Candidate)
    (previousMove : Option Nat) (disableNullMoves strict : Bool) :
    Option MNode × GameState :=
  (History.validateMove o s cand previousMove disableNullMoves strict, s)

/-- Method `Chess.delete`: splices the move and its trailing siblings out of
its array (the index found by ply equality; JS `findIndex` yields `-1` when
absent and `splice(-1)` then removes the last element), promotes the first
variation into the vacated continuation slot, filters empty variants when a
variation root was removed, reseeks when the current move was a descendant,
and publishes a DeleteMove event.  Corner cases where the source would fault
on an `undefined` array access are modelled as leaving the state unchanged;
they cannot arise in well-formed states. -/
def Chess.delete (s : GameState) (m : Option Nat) : GameState :=
  match m with
  | none => s
  | some moveId =>
    match s.node moveId with
    | none => s
    | some mv =>
      match mv.variation with
      | none => s
      | some v =>
        let arr := s.varr v
        let index := arr.findIdx? (fun id2 => nodePly s id2 == mv.ply)
        let arr' := match index with
          | some i => arr.take i
          | none => arr.take (arr.length - 1)
        let s1 := { s with arena := s.arena.modVar v (fun _ => arr') }
        let mainlineMove : Option Nat := match mv.previous with
          | some p => nodeNextF s1 p
          | none => Chess.firstMove s1
        let s2 :=
          if mainlineMove == some moveId then
            match mv.previous with
            | some p =>
              let sA := { s1 with arena := s1.arena.modNode p (fun n => { n with next := none }) }
              match mv.variations.head? with
              | some firstVar =>
                match (sA.varr firstVar).head? with
                | some r =>
                  -- move.previous.next = move.variations[0][0]
                  let sB := { sA with arena := sA.arena.modNode p (fun n => { n with next := some r }) }
                  -- move.previous.variation.push(...move.previous.next.variation)
                  let pVar := nodeVarF sB p
                  let rVar := nodeVarF sB r
                  let sC := match pVar, rVar with
                    | some w, some u => { sB with arena := sB.arena.modVar w (fun l => l ++ sB.varr u) }
                    | _, _ => sB
                  -- move.previous.next.variation = move.previous.variation
                  let sD := { sC with arena := sC.arena.modNode r (fun n => { n with variation := pVar }) }
                  -- move.previous.next.variations = move.variations.slice(1)
                  { sD with arena := sD.arena.modNode r (fun n => { n with variations := mv.variations.tail }) }
                | none => sA
              | none => sA
            | none =>
              match mv.variations.head? with
              | some firstVar =>
                match (s1.varr firstVar).head? with
                | some r =>
                  -- this.pgn.history.moves = move.variations[0][0].variation
                  match nodeVarF s1 r with
                  | some newMain =>
                    let sB := { s1 with mainVar := newMain }
                    { sB with arena := sB.arena.modNode r (fun n => { n with variations := mv.variations.tail }) }
                  | none => s1
                | none => s1
              | none => s1
          else if index == some 0 && mainlineMove.isSome then
            match mainlineMove with
            | some mm =>
              { s1 with arena := s1.arena.modNode mm (fun n =>
                  { n with variations := n.variations.filter (fun v2 => (s1.varr v2).length > 0) }) }
            | none => s1
          else s1
        let s3 := if Chess.isDescendant s2 moveId s2.currentMove then Chess.seek s2 mv.previous else s2
        publish s3 { type := .DeleteMove, move := some moveId,
                     previousMove := mv.previous, mainlineMove := mainlineMove }

/-- List of a node's variation arrays. -/
def varsOfNode (s : GameState) (id : Nat) : List Nat :=
  ((s.node id).map (fun n => n.variations)).getD []

/-- Method `Chess.getVariantParent`: for a non-mainline move, the main
continuation at the start of its variation (`variation[0].previous.next`), or
the game's first move when the variation is rooted at the start. -/
def Chess.getVariantParent (s : GameState) (m : Option Nat) : Option Nat :=
  match m with
  | none => none
  | some id =>
    if Chess.isInMainline s (some id) then none
    else
      match (nodeVarF s id).bind (fun v => (s.varr v).head?) with
      | none => none
      | some root =>
        match nodePrev s root with
        | none => Chess.firstMove s
        | some p => nodeNextF s p

/-- Method `Chess.canPromoteVariation`: the move must be in a variation, and
unless `intoMainline` is set or the variant parent is itself off the mainline,
its variation must not be the parent's first variation. -/
def Chess.canPromoteVariation (s : GameState) (m : Option Nat) (intoMainline : Bool) : Bool :=
  match Chess.getVariantParent s m with
  | none => false
  | some vp =>
    if intoMainline then true
    else if !Chess.isInMainline s (some vp) then true
    else
      let variantRoot := m.bind (fun id => (nodeVarF s id).bind (fun v => (s.varr v).head?))
      match (varsOfNode s vp).findIdx? (fun v => (s.varr v).head? == variantRoot) with
      | some i => decide (1 ≤ i)
      | none => false

/-- Adjacent swap of entries `i-1` and `i` of a variations list. -/
def swapAdj (l : List Nat) (i : Nat) : List Nat :=
  match l.get? (i - 1), l.get? i with
  | some x, some y => (l.set (i - 1) y).set i x
  | _, _ => l

/-- Set the `variation` field of every listed node to `v` (the
`for` loops of `promoteVariation` that rewrite array ownership). -/
def setVariationAll (s : GameState) (ids : List Nat) (v : Nat) : GameState :=
  { s with arena := ids.foldl (fun a id => a.modNode id (fun n => { n with variation := some v })) s.arena }

/-- The `do`/`while` loop of `Chess.promoteVariation`, with fuel.  One full
iteration either swaps the variation one slot forward (local promotion) or
splices the promoted line into the parent line and demotes the old
continuation; with `intoMainline` the walk then continues at the previous
move's variation root, which has a strictly smaller ply in well-formed states,
so the node count bounds the iterations. -/
def Chess.promoteLoop (intoMainline : Bool) (moveId : Nat) :
    Nat → GameState → Nat → Nat → GameState × Nat × Nat
  | 0, s, vr, vp => (s, vr, vp)
  | fuel + 1, s, variantRoot, variantParent =>
    match (varsOfNode s variantParent).findIdx? (fun v => (s.varr v).head? == some variantRoot) with
    | none => (s, variantRoot, variantParent)
    | some variantIndex =>
      let s' :=
        if intoMainline || variantIndex == 0 then
          match nodeVarF s variantParent with
          | none => s
          | some w =>
            let parentVariation := s.varr w
            let parentIndex := match parentVariation.findIdx? (fun x => x == variantParent) with
              | some i => i
              | none => parentVariation.length - 1
            -- variantParent.variation = parentVariation.splice(parentIndex):
            -- the removed suffix becomes a fresh array owned by the parent
            let su := s.arena.nextVar
            let a1 := (s.arena.addVar (parentVariation.drop parentIndex)).2
            let a2 := a1.modVar w (fun _ => parentVariation.take parentIndex)
            let a3 := a2.modNode variantParent (fun n => { n with variation := some su })
            let s1 := { s with arena := a3 }
            let s2 := match nodePrev s1 variantRoot with
              | some rp =>
                -- variantRoot.previous.next = variantRoot; parentVariation.push(...move.variation)
                let s1a := { s1 with arena := s1.arena.modNode rp (fun n => { n with next := some variantRoot }) }
                match nodeVarF s1a moveId with
                | some mvv => { s1a with arena := s1a.arena.modVar w (fun l => l ++ s1a.varr mvv) }
                | none => s1a
              | none =>
                -- this.pgn.history.moves = variantRoot.variation
                match nodeVarF s1 variantRoot with
                | some rv => { s1 with mainVar := rv }
                | none => s1
            -- variantRoot.variations = [variantParent.variation (= the spliced
            -- suffix), ...slice(0, variantIndex), ...slice(variantIndex + 1)]
            let origVars := varsOfNode s variantParent
            let s3 := { s2 with arena := s2.arena.modNode variantRoot (fun n =>
                { n with variations := su :: (origVars.take variantIndex ++ origVars.drop (variantIndex + 1)) }) }
            -- variantParent.variations = []
            let s4 := { s3 with arena := s3.arena.modNode variantParent (fun n => { n with variations := [] }) }
            -- if (variantRoot.previous) every member of variantRoot.variation
            -- gets variation = variantRoot.previous.variation
            let s5 := match nodePrev s4 variantRoot with
              | some rp =>
                match nodeVarF s4 variantRoot, nodeVarF s4 rp with
                | some rv, some tgt => setVariationAll s4 (s4.varr rv) tgt
                | _, _ => s4
              | none => s4
            -- every member of variantParent.variation gets variation = that array
            match nodeVarF s5 variantParent with
            | some pv => setVariationAll s5 (s5.varr pv) pv
            | none => s5
        else
          { s with arena := s.arena.modNode variantParent (fun n =>
              { n with variations := swapAdj n.variations variantIndex }) }
      -- nextVariantRoot = variantRoot.previous?.variation[0];
      -- nextVariantParent = getVariantParent(nextVariantRoot) (JS default
      -- substitution: an undefined argument falls back to the current move)
      let nvr : Option Nat := (nodePrev s' variantRoot).bind (fun rp =>
        (nodeVarF s' rp).bind (fun v2 => (s'.varr v2).head?))
      let nvp := Chess.getVariantParent s' (match nvr with | some x => some x | none => s'.currentMove)
      match nvr, nvp with
      | some r2, some p2 =>
        if intoMainline && !Chess.isInMainline s' (some r2) then
          Chess.promoteLoop intoMainline moveId fuel s' r2 p2
        else (s', variantRoot, variantParent)
      | _, _ => (s', variantRoot, variantParent)

/-- Method `Chess.promoteVariation`: a no-op unless `canPromoteVariation`
holds; otherwise runs the promotion loop and publishes a PromoteVariation
event. -/
def Chess.promoteVariation (s : GameState) (m : Option Nat) (intoMainline : Bool) : GameState :=
  match m with
  | none => s
  | some moveId =>
    if !Chess.canPromoteVariation s m intoMainline then s
    else
      match (nodeVarF s moveId).bind (fun v => (s.varr v).head?), Chess.getVariantParent s m with
      | some r0, some p0 =>
        let res := Chess.promoteLoop intoMainline moveId (s.arena.nodes.length + 1) s r0 p0
        publish res.1 { type := .PromoteVariation, move := some moveId,
                        variantRoot := some res.2.1, variantParent := some res.2.2 }
      | _, _ => s

/-! ## Rendering (src/History.ts, src/Pgn.ts, src/Header.ts) -/

/-- The standard start FEN (`FEN.start` in src/Chess.ts). -/
def FENstart : String := "rnbqkbnr/pppppppp/8/8/8/8/PPPPPPPP/RNBQKBNR w KQkq - 0 1"

/-- Render options of `HistoryRenderOptions` in src/History.ts (an absent
options object has every flag falsy). -/
structure HistoryRenderOptions where
  skipComments : Bool := false
  skipNags : Bool := false
  skipDrawables : Bool := false
  skipVariations : Bool := false
  skipNullMoves : Bool := false
  skipClocks : Bool := false
deriving DecidableEq, Repr

/-- Function `renderCommands` of src/History.ts: the diagram commands of a
comment as one brace block (`[%cal ...]`, `[%csl ...]`, `[%clk ...]` padded to
three colon fields, then the passthrough commands). -/
def renderCommands (cd : DComment) (opts : HistoryRenderOptions) : String :=
  let result := ""
  let result := if !opts.skipDrawables && cd.colorArrows ≠ [] then
      result ++ "[%cal " ++ String.intercalate "," cd.colorArrows ++ "]" else result
  let result := if !opts.skipDrawables && cd.colorFields ≠ [] then
      result ++ "[%csl " ++ String.intercalate "," cd.colorFields ++ "]" else result
  let result := if !opts.skipClocks && truthyS cd.clk then
      -- while (tokens.length < 3) tokens.unshift('00')
      let tokens := jsSplitChar ':' (cd.clk.getD "")
      let tokens := List.replicate (3 - tokens.length) "00" ++ tokens
      result ++ "[%clk " ++ String.intercalate ":" tokens ++ "]"
    else result
  let result := cd.rest.foldl (fun acc p =>
      if p.2 ≠ "" then acc ++ "[%" ++ p.1 ++ " " ++ p.2 ++ "]" else acc) result
  if result.length == 0 then "" else "\x7b " ++ result ++ " \x7d "

mutual

/-- One global pass of the JS `replace(/\s+\)/g, ')')` over a character
list. -/
def stripWsParen : List Char → List Char
  | [] => []
  | c :: rest =>
    if wsChar c then stripWsParenRun [c] rest
    else c :: stripWsParen rest

/-- Helper for `stripWsParen`: inside a whitespace run (held reversed). -/
def stripWsParenRun (run : List Char) : List Char → List Char
  | [] => run.reverse
  | c :: rest =>
    if wsChar c then stripWsParenRun (c :: run) rest
    else if c == ')' then ')' :: stripWsParen rest
    else run.reverse ++ c :: stripWsParen rest

end

/-- One global pass of the JS `replace(/  /g, ' ')` (non-overlapping double
spaces become single). -/
def collapseDoubleSpaces : List Char → List Char
  | ' ' :: ' ' :: rest => ' ' :: collapseDoubleSpaces rest
  | c :: rest => c :: collapseDoubleSpaces rest
  | [] => []

/-- The post-processing of `renderVariation`: remove whitespace before closing
parentheses, collapse double spaces, trim. -/
def renderPost (str : String) : String :=
  jsTrim ⟨collapseDoubleSpaces (stripWsParen str.data)⟩

/-- The `for (let move of variation)` loop of `renderVariationRecursive` in
src/History.ts: move-before comment, move number (with reminder logic), SAN,
NAGs, after comment, diagram commands, then each variation parenthesized —
note that the source renders nested variations through `renderVariation`
without passing the options on, so they use the defaults.  The fuel bounds the
nesting depth; the well-formed bound is passed by `History.render`. -/
def renderMoveList (s : GameState) : Nat → HistoryRenderOptions → List Nat → Bool → String → String
  | _, _, [], _, result => result
  | 0, _, _ :: _, _, result => result
  | fuel + 1, opts, id :: rest, needReminder, result =>
    match s.node id with
    | none => renderMoveList s fuel opts rest needReminder result
    | some mv =>
      if opts.skipNullMoves && mv.core.san == nullMoveSan then result
      else
        let pr := if !opts.skipComments && truthyS mv.commentMove then
            (result ++ "\x7b " ++ mv.commentMove.getD "" ++ " \x7d ", true)
          else (result, needReminder)
        let result := pr.1
        let needReminder := pr.2
        let result :=
          if mv.ply % 2 == 1 then result ++ toString (mv.ply / 2 + 1) ++ ". "
          else if result.length == 0 || needReminder then result ++ toString (mv.ply / 2) ++ "... "
          else result
        let needReminder := false
        let result := result ++ mv.core.san ++ " "
        let result := if !opts.skipNags then
            match mv.nags with
            | some l => result ++ String.intercalate " " l ++ " "
            | none => result
          else result
        let pr2 := if !opts.skipComments && truthyS mv.commentAfter then
            (result ++ "\x7b " ++ mv.commentAfter.getD "" ++ " \x7d ", true)
          else (result, needReminder)
        let result := pr2.1
        let needReminder := pr2.2
        let pr3 := match mv.commentDiag with
          | some cd =>
            let commands := renderCommands cd opts
            (result ++ commands, needReminder || commands.length > 0)
          | none => (result, needReminder)
        let result := pr3.1
        let needReminder := pr3.2
        let pr4 := if !opts.skipVariations && mv.variations ≠ [] then
            (mv.variations.foldl (fun acc v =>
              acc ++ "(" ++ renderPost (renderMoveList s fuel {} (s.varr v) false "") ++ ") ") result,
             true)
          else (result, needReminder)
        renderMoveList s fuel opts rest pr4.2 (pr4.1 ++ " ")

/-- Function `renderVariation` of src/History.ts: the recursive rendering
followed by the whitespace post-processing. -/
def renderVariation (s : GameState) (fuel : Nat) (ids : List Nat)
    (opts : HistoryRenderOptions) : String :=
  renderPost (renderMoveList s fuel opts ids false "")

/-- Method `History.render`: renders the mainline.  The fuel (consumed once
per rendered move and per nesting level) is bounded by the node and array
counts in any well-formed state. -/
def History.render (s : GameState) (opts : HistoryRenderOptions) : String :=
  renderVariation s (s.arena.nodes.length + s.arena.vars.length + 1) (s.varr s.mainVar) opts

/-! ## Header and Pgn rendering -/

/-- The seven tag roster, in PGN-standard order (re-exported by the parser
package). -/
def SevenTagRoster : List String := ["Event", "Site", "Date", "Round", "White", "Black", "Result"]

/-- Method `Header.getRawValue`: the raw string value of a tag, empty when
absent.  (Parser tags with object values are out of scope; the model keeps raw
strings.) -/
def Header.getRawValue (tags : List (String × String)) (name : String) : String :=
  match tags.find? (fun p => p.1 == name) with
  | some p => p.2
  | none => ""

/-- Method `Header.render`: roster tags first (skipping empty values), then
the remaining tags in insertion order (keys are unique in a JS object). -/
def Header.render (tags : List (String × String)) : String :=
  let roster := SevenTagRoster.foldl (fun acc tag =>
    let value := Header.getRawValue tags tag
    if value ≠ "" then acc ++ "[" ++ tag ++ " \"" ++ value ++ "\"]\n" else acc) ""
  tags.foldl (fun acc p =>
    if SevenTagRoster.contains p.1 then acc
    else acc ++ "[" ++ p.1 ++ " \"" ++ Header.getRawValue tags p.1 ++ "\"]\n") roster

/-- Render options of `RenderOptions` in src/Pgn.ts.  A `width` of 0 plays the
role of the absent field (both select `-1`, no wrapping, via
`options.width || -1`). -/
structure RenderOptions extends HistoryRenderOptions where
  width : Int := 0
  skipHeader : Bool := false
deriving DecidableEq, Repr

/-- Method `Pgn.renderResult`: the Result tag if it is one of the three
terminal results, otherwise `*`. -/
def Pgn.renderResult (tags : List (String × String)) : String :=
  match tags.find? (fun p => p.1 == "Result") with
  | some p => if p.2 == "1-0" || p.2 == "0-1" || p.2 == "1/2-1/2" then p.2 else "*"
  | none => "*"

/-- Method `Pgn.renderHeader`. -/
def Pgn.renderHeader (tags : List (String × String)) (opts : RenderOptions) : String :=
  if !opts.skipHeader then Header.render tags ++ "\n"
  else
    let fen := Header.getRawValue tags "FEN"
    if fen ≠ "" && fen ≠ FENstart then
      "[FEN \"" ++ fen ++ "\"]\n[SetUp \"1\"]\n\n"
    else ""

/-- Method `Pgn.renderGameComment` (the game comment object always exists, so
only `skipComments` can suppress it). -/
def Pgn.renderGameComment (gc : DComment) (opts : RenderOptions) : String :=
  if opts.skipComments then ""
  else
    let result := match gc.comment with
      | some c => if c ≠ "" then "\x7b " ++ c ++ " \x7d" else ""
      | none => ""
    let result := result ++ renderCommands gc opts.toHistoryRenderOptions
    if result.length > 0 then result ++ "\n" else result

/-- Function `wrap` of src/Pgn.ts: trim when `maxLength <= 0`, else greedy
word wrap at single spaces. -/
def wrap (str : String) (maxLength : Int) : String :=
  if maxLength ≤ 0 then jsTrim str
  else
    let words := jsSplitChar ' ' str
    let p := words.foldl (fun (acc : List String × String) word =>
      if (acc.2.length : Int) + (word.length : Int) < maxLength then
        (acc.1, acc.2 ++ word ++ " ")
      else (acc.1 ++ [jsTrim acc.2], word ++ " ")) ([], "")
    jsJoin "\n" (p.1 ++ [jsTrim p.2])

/-- Method `Pgn.render`: header, game comment, then the wrapped move text with
the result token appended as the final token. -/
def Pgn.render (s : GameState) (tags : List (String × String)) (gc : DComment)
    (opts : RenderOptions) : String :=
  let result := Pgn.renderHeader tags opts
  let result := result ++ Pgn.renderGameComment gc opts
  let history := History.render s opts.toHistoryRenderOptions
  let history := history ++ " " ++ Pgn.renderResult tags
  result ++ wrap history (if opts.width == 0 then -1 else opts.width)

/-! ## Concrete oracles and scenario states

The oracle instances used by the concrete scenarios are finite tables of real
chess positions and moves (chess.js is external; the tables record what it
returns on these inputs). -/

/-- An oracle backed by finite tables: legal moves, positions in check,
finished positions, and king squares. -/
def tableOracle (mv : List (String × Candidate × CJMove)) (checks : List String)
    (overs : List String) (kings : List (String × String × String)) : Oracle :=
  { move := fun fen cand _strict =>
      (mv.find? (fun e => e.1 == fen && e.2.1 == cand)).map (fun e => e.2.2)
    isCheck := fun fen => checks.contains fen
    isGameOver := fun fen => overs.contains fen
    kingSquare := fun fen color =>
      (kings.find? (fun e => e.1 == fen && e.2.1 == color)).map (fun e => e.2.2)
    pieceAt := fun _ _ => none }

/-- Position after 1. e4. -/
def afterE4 : String := "rnbqkbnr/pppppppp/8/8/4P3/8/PPPP1PPP/RNBQKBNR b KQkq e3 0 1"

/-- Position after 1. d4. -/
def afterD4 : String := "rnbqkbnr/pppppppp/8/8/3P4/8/PPP1PPPP/RNBQKBNR b KQkq d3 0 1"

/-- Position after 1. e4 e5. -/
def afterE4E5 : String := "rnbqkbnr/pppp1ppp/8/4p3/4P3/8/PPPP1PPP/RNBQKBNR w KQkq e6 0 2"

/-- Position after 1. e4 e5 2. Nf3. -/
def afterE4E5Nf3 : String := "rnbqkbnr/pppp1ppp/8/4p3/4P3/5N2/PPPP1PPP/RNBQKB1R b KQkq - 1 2"

/-- Position after 1. e4 c5. -/
def afterE4C5 : String := "rnbqkbnr/pp1ppppp/8/2p5/4P3/8/PPPP1PPP/RNBQKBNR w KQkq c6 0 2"

/-- Position after 1. e4 c5 2. Nf3. -/
def afterE4C5Nf3 : String := "rnbqkbnr/pp1ppppp/8/2p5/4P3/5N2/PPPP1PPP/RNBQKB1R b KQkq - 1 2"

/-- Move object for 1. e4. -/
def cjE4 : CJMove :=
  { color := "w", fromSq := "e2", toSq := "e4", piece := "p", san := "e4", lan := "e2e4",
    before := FENstart, after := afterE4 }

/-- Move object for 1. d4. -/
def cjD4 : CJMove :=
  { color := "w", fromSq := "d2", toSq := "d4", piece := "p", san := "d4", lan := "d2d4",
    before := FENstart, after := afterD4 }

/-- Move object for 1... e5. -/
def cjE5 : CJMove :=
  { color := "b", fromSq := "e7", toSq := "e5", piece := "p", san := "e5", lan := "e7e5",
    before := afterE4, after := afterE4E5 }

/-- Move object for 1... c5. -/
def cjC5 : CJMove :=
  { color := "b", fromSq := "c7", toSq := "c5", piece := "p", san := "c5", lan := "c7c5",
    before := afterE4, after := afterE4C5 }

/-- Move object for 2. Nf3 after 1. e4 e5. -/
def cjNf3e5 : CJMove :=
  { color := "w", fromSq := "g1", toSq := "f3", piece := "n", san := "Nf3", lan := "g1f3",
    before := afterE4E5, after := afterE4E5Nf3 }

/-- Move object for 2. Nf3 after 1. e4 c5. -/
def cjNf3c5 : CJMove :=
  { color := "w", fromSq := "g1", toSq := "f3", piece := "n", san := "Nf3", lan := "g1f3",
    before := afterE4C5, after := afterE4C5Nf3 }

/-- The oracle table shared by the concrete scenarios. -/
def oracleA : Oracle :=
  tableOracle
    [(FENstart, .san "e4", cjE4),
     (FENstart, .san "d4", cjD4),
     (FENstart, .obj "e2" "e4" none, cjE4),
     (afterE4, .san "e5", cjE5),
     (afterE4, .san "c5", cjC5),
     (afterE4E5, .san "Nf3", cjNf3e5),
     (afterE4C5, .san "Nf3", cjNf3c5)]
    [] [] []

/-- Build a `PgnLine` from a list. -/
def PgnLine.ofList : List PgnTree → PgnLine
  | [] => .nil
  | m :: rest => .cons m (PgnLine.ofList rest)

/-- Build a `PgnLines` from a list of lists. -/
def PgnLines.ofList : List (List PgnTree) → PgnLines
  | [] => .nil
  | l :: rest => .cons (PgnLine.ofList l) (PgnLines.ofList rest)

/-- A parsed move without metadata or variations. -/
def pm (san : String) : PgnTree := .mk san {} .nil

/-- A parsed move with variations. -/
def pmv (san : String) (vs : List (List PgnTree)) : PgnTree :=
  .mk san {} (PgnLines.ofList vs)

/-- Method `Chess.loadPgn` restricted to what the claims exercise: the parsed
move list becomes the History, the current move becomes the last mainline
move, and an Initialized event is published.  (Header parsing is out of scope
here; the setup FEN is passed directly.) -/
def loadPgnState (o : Oracle) (line : PgnLine) (fen : String) : GameState :=
  let s := mkHistory o false line fen
  { s with currentMove := Chess.lastMove s,
           events := s.events ++ [{ type := .Initialized }] }

/-- Move object for 1. Nf3 from the start position. -/
def cjNf3Start : CJMove :=
  { color := "w", fromSq := "g1", toSq := "f3", piece := "n", san := "Nf3", lan := "g1f3",
    before := FENstart, after := "rnbqkbnr/pppppppp/8/8/8/5N2/PPPPP1PP/RNBQKB1R b KQkq - 1 1" }

/-- The scenario state `1. e4 e5 2. Nf3` (no variations), loaded as a PGN
(current move = the last mainline move).  Node ids: 0 = e4, 1 = e5, 2 = Nf3;
the mainline is array 1. -/
def stMain3 : GameState :=
  loadPgnState oracleA (PgnLine.ofList [pm "e4", pm "e5", pm "Nf3"]) FENstart

/-- The scenario state `1. e4 (1. d4) e5`.  Node ids: 0 = e4, 1 = e5,
2 = d4; the mainline is array 1, d4's variation is array 2. -/
def stPromo : GameState :=
  loadPgnState oracleA (PgnLine.ofList [pmv "e4" [[pm "d4"]], pm "e5"]) FENstart

/-- First stage of the delete scenario: `1. e4 e5` loaded (node 0 = e4,
node 1 = e5, mainline array 1). -/
def stDel0 : GameState :=
  loadPgnState oracleA (PgnLine.ofList [pm "e4", pm "e5"]) FENstart

/-- Second stage: `addMove('c5', previous = e4)` creates node 2 = c5 as a new
variation (array 2) of e5. -/
def stDel1 : GameState :=
  match History.addMove oracleA stDel0 (.san "c5") (some 0) false false with
  | .ok (_, s) => s
  | .error _ => stDel0

/-- Third stage: `addMove('Nf3', previous = c5)` extends the variation to
`[c5, Nf3]` (node 3 = Nf3 in array 2). -/
def stDel2 : GameState :=
  match History.addMove oracleA stDel1 (.san "Nf3") (some 2) false false with
  | .ok (_, s) => s
  | .error _ => stDel1

/-- The state after `delete(e5)` in the stale-variation scenario. -/
def stDel3 : GameState := Chess.delete stDel2 (some 1)

/-- The scenario for branch abandonment: `1. e4 (1. d4 Qh9??) (1. Nf3) e5`
where the second move of the d4 branch is illegal (no oracle entry).  Node
ids: 0 = e4, 1 = e5, 2 = Nf3, 3 = d4; mainline is array 1. -/
def oracleB : Oracle :=
  tableOracle
    [(FENstart, .san "e4", cjE4),
     (FENstart, .san "d4", cjD4),
     (FENstart, .san "Nf3", cjNf3Start),
     (afterE4, .san "e5", cjE5)]
    [] [] []

def stBranch : GameState :=
  loadPgnState oracleB
    (PgnLine.ofList [pmv "e4" [[pm "d4", pm "Qh9"], [pm "Nf3"]], pm "e5"]) FENstart

/-- The ply formula exactly as claim C4 states it, as a decidable check over
the whole arena: `move.ply == (move.previous?.ply ?? setupPly) + 1`. -/
def claimPlyFormula (s : GameState) : Bool :=
  s.arena.nodes.all (fun p =>
    p.2.ply == (match p.2.previous with | some q => nodePly s q | none => s.setUpPly) + 1)

/-- The ply rule the source actually implements, as a decidable check:
`move.ply == previous.ply + 1` when there is a previous move, and
`move.ply == setUpPly` for a root move. -/
def plyInvariant (s : GameState) : Bool :=
  s.arena.nodes.all (fun p =>
    p.2.ply == (match p.2.previous with | some q => nodePly s q + 1 | none => s.setUpPly))

/-- A well-formed FEN field: non-empty, no whitespace. -/
def fenField (f : String) : Prop :=
  f.data ≠ [] ∧ ∀ c ∈ f.data, wsChar c = false

instance (f : String) : Decidable (fenField f) := by
  unfold fenField; infer_instance

/-- Oracle for the C9 witness: the position `4r2k/8/8/8/8/8/8/4K3 w - - 0 1`
has white in check from the e8 rook; from the standard start position (not in
check) the kings stand on e1 and e8. -/
def oracleC9 : Oracle :=
  tableOracle [] ["4r2k/8/8/8/8/8/8/4K3 w - - 0 1"] []
    [(FENstart, "w", "e1"), (FENstart, "b", "e8")]

/-! ## Well-formedness of a tree state

The structural invariants of §3 of the spec, as an executable check over the
arena.  States produced by construction and `addMove` satisfy it; the
universal claim theorems take it as a hypothesis (discharged by `decide` at
the concrete witness states). -/

/-- Links along one variation array: each element's `next` is the following
element (none for the last), and each following element's `previous` is its
predecessor. -/
def arrayLinksB (s : GameState) : List Nat → Bool
  | [] => true
  | [a] => nodeNextF s a == none
  | a :: b :: rest =>
    nodeNextF s a == some b && nodePrev s b == some a && arrayLinksB s (b :: rest)

/-- An array member references the array as its `variation`. -/
def memberOkB (s : GameState) (v id : Nat) : Bool :=
  match s.node id with
  | some n => n.variation == some v
  | none => false

/-- Per-node well-formedness: the node lies in its own `variation` array; its
`previous` resolves and the ply rule holds; each of its `variations` is a
registered non-empty array whose first element's `previous` equals the node's
own `previous` (the branch point). -/
def nodeOkB (s : GameState) (id : Nat) (n : MNode) : Bool :=
  (match n.variation with
   | some v => (s.varr v).contains id
   | none => false) &&
  (match n.previous with
   | some q => (s.node q).isSome && (n.ply == nodePly s q + 1)
   | none => n.ply == s.setUpPly) &&
  n.variations.all (fun v =>
    (alook s.arena.vars v).isSome &&
    match (s.varr v).head? with
    | some r => nodePrev s r == n.previous
    | none => false)

/-- Per-array well-formedness: members reference the array, links are
consistent, no duplicate members. -/
def varOkB (s : GameState) (v : Nat) (l : List Nat) : Bool :=
  l.all (memberOkB s v) && arrayLinksB s l && decide l.Nodup

/-- The invariants of §3 over the whole arena: well-formed arrays and nodes,
unique and bounded ids, a registered mainline whose first move (if any) has no
previous, and a resolvable current move. -/
def TreeWF (s : GameState) : Bool :=
  s.arena.vars.all (fun p => varOkB s p.1 p.2) &&
  s.arena.nodes.all (fun p => nodeOkB s p.1 p.2) &&
  decide (s.arena.nodes.map Prod.fst).Nodup &&
  decide (s.arena.vars.map Prod.fst).Nodup &&
  s.arena.nodes.all (fun p => p.1 < s.arena.nextNode) &&
  s.arena.vars.all (fun p => p.1 < s.arena.nextVar) &&
  (alook s.arena.vars s.mainVar).isSome &&
  (match (s.varr s.mainVar).head? with
   | some r => nodePrev s r == none
   | none => true) &&
  (match s.currentMove with
   | some c => (s.node c).isSome
   | none => true)

/-- The comparison `Chess.candidateMatches` applies to a move's chess.js
fields: SAN string equality, or from/to/promotion field equality for
structured candidates. -/
def candMatchesCore (cand : Candidate) (c : CJMove) : Bool :=
  match cand with
  | .san str => c.san == str
  | .obj f t pr => c.fromSq == f && c.toSq == t && c.promotion == pr

/-- The arena `History.addMove` builds when the continuation slot after the
branch point is already occupied (node `branchAt`): a fresh empty variation is
pushed onto `branchAt.variations` and the new move becomes its only member. -/
def addBranchArena (s : GameState) (branchAt : Nat) (m1 : MNode) : Arena :=
  { nodes := amod s.arena.nodes branchAt
        (fun n => { n with variations := n.variations ++ [s.arena.nextVar] })
      ++ [(s.arena.nextNode, { m1 with variation := some s.arena.nextVar })],
    vars := amod (s.arena.vars ++ [(s.arena.nextVar, [])]) s.arena.nextVar
      (fun l => l ++ [s.arena.nextNode]),
    nextNode := s.arena.nextNode + 1,
    nextVar := s.arena.nextVar + 1 }

/-- The arena `History.addMove` builds when the new move extends the tip of
its parent `p`, whose variation array is `v`. -/
def addTipArena (s : GameState) (p v : Nat) (m1 : MNode) : Arena :=
  { nodes := amod (s.arena.nodes
        ++ [(s.arena.nextNode, { m1 with variation := some v })]) p
      (fun n => { n with next := some s.arena.nextNode }),
    vars := amod s.arena.vars v (fun l => l ++ [s.arena.nextNode]),
    nextNode := s.arena.nextNode + 1,
    nextVar := s.arena.nextVar }

/-- The arena `History.addMove` builds when the mainline is still empty. -/
def addRootArena (s : GameState) (m1 : MNode) : Arena :=
  { nodes := s.arena.nodes
      ++ [(s.arena.nextNode, { m1 with variation := some s.mainVar })],
    vars := amod s.arena.vars s.mainVar (fun l => l ++ [s.arena.nextNode]),
    nextNode := s.arena.nextNode + 1,
    nextVar := s.arena.nextVar }

/-- Relation between arenas: no node of `b` holds a `variations` entry that
its counterpart in `a` did not already hold — every node of `b` either existed
in `a` with the same `variations` list, or is new with no variations at all.
A failed `traverse` frame leaves the arena in this relation to the arena it
started from: nothing it built (in particular no prefix of its branch) is
attached anywhere. -/
def VarPres (a b : Arena) : Prop :=
  ∀ x n1, alook b.nodes x = some n1 →
    (∃ n0, alook a.nodes x = some n0 ∧ n0.variations = n1.variations) ∨
    n1.variations = []

theorem alook_mem {α : Type} : ∀ (l : List (Nat × α)) (k : Nat) (v : α),
    alook l k = some v → (k, v) ∈ l
  | [], k, v, h => by simp [alook] at h
  | (k', v') :: rest, k, v, h => by
    rw [alook] at h
    by_cases hk : k' = k
    · rw [if_pos hk] at h
      injection h with h
      subst h; subst hk
      simp
    · rw [if_neg hk] at h
      exact List.mem_cons_of_mem _ (alook_mem rest k v h)

theorem mem_alook {α : Type} : ∀ (l : List (Nat × α)), (l.map Prod.fst).Nodup →
    ∀ (k : Nat) (v : α), (k, v) ∈ l → alook l k = some v
  | [], _, k, v, h => by simp at h
  | (k', v') :: rest, hnd, k, v, h => by
    rw [List.map_cons, List.nodup_cons] at hnd
    rcases List.mem_cons.mp h with h | h
    · injection h with h1 h2
      subst h1; subst h2
      simp [alook]
    · have hne : k' ≠ k := by
        intro he
        exact hnd.1 (List.mem_map.mpr ⟨(k, v), h, he.symm⟩)
      rw [alook, if_neg hne]
      exact mem_alook rest hnd.2 k v h

/-! ## Extraction lemmas for TreeWF -/

theorem TreeWF.varOk {s : GameState} (h : TreeWF s = true) {v : Nat} {l : List Nat}
    (hv : alook s.arena.vars v = some l) : varOkB s v l = true := by
  rw [TreeWF] at h
  repeat rw [Bool.and_eq_true] at h
  exact (List.all_eq_true.mp h.1.1.1.1.1.1.1.1) (v, l) (alook_mem _ _ _ hv)

theorem TreeWF.nodeOk {s : GameState} (h : TreeWF s = true) {id : Nat} {n : MNode}
    (hn : s.node id = some n) : nodeOkB s id n = true := by
  rw [TreeWF] at h
  repeat rw [Bool.and_eq_true] at h
  exact (List.all_eq_true.mp h.1.1.1.1.1.1.1.2) (id, n) (alook_mem _ _ _ hn)

theorem TreeWF.mainRoot {s : GameState} (h : TreeWF s = true) {r : Nat}
    (hr : (s.varr s.mainVar).head? = some r) : nodePrev s r = none := by
  rw [TreeWF] at h
  repeat rw [Bool.and_eq_true] at h
  have h1 := h.1.2
  rw [hr] at h1
  exact eq_of_beq h1

/-- From within-array links: a node's `next` always points back with
`previous`. -/
theorem arrayLinks_next (s : GameState) : ∀ (l : List Nat),
    arrayLinksB s l = true → ∀ a ∈ l, ∀ b, nodeNextF s a = some b → nodePrev s b = some a
  | [], _, a, ha, _, _ => by simp at ha
  | [x], hl, a, ha, b, hb => by
    simp at ha
    subst ha
    rw [show arrayLinksB s [a] = (nodeNextF s a == none) from rfl] at hl
    rw [eq_of_beq hl] at hb
    exact absurd hb (by simp)
  | x :: y :: rest, hl, a, ha, b, hb => by
    rw [show arrayLinksB s (x :: y :: rest)
      = (nodeNextF s x == some y && nodePrev s y == some x && arrayLinksB s (y :: rest)) from rfl,
      Bool.and_eq_true, Bool.and_eq_true] at hl
    rcases List.mem_cons.mp ha with h | h
    · subst h
      rw [eq_of_beq hl.1.1] at hb
      injection hb with hb
      subst hb
      exact eq_of_beq hl.1.2
    · exact arrayLinks_next s (y :: rest) hl.2 a h b hb

/-- `nextMove` of any position points to a node whose `previous` is that
position (the root case uses the mainline-root invariant). -/
theorem TreeWF.nextMove_prev {s : GameState} (h : TreeWF s = true)
    {prev : Option Nat} {id : Nat} (hnm : Chess.nextMove s prev = some id) :
    nodePrev s id = prev := by
  cases prev with
  | none =>
    have : (s.varr s.mainVar).head? = some id := hnm
    rw [TreeWF.mainRoot h this]
  | some p =>
    have hnx : nodeNextF s p = some id := hnm
    have hpn : ∃ pn, s.node p = some pn := by
      unfold nodeNextF at hnx
      cases hq : s.node p with
      | none => rw [hq] at hnx; exact absurd hnx (by simp)
      | some pn => exact ⟨pn, rfl⟩
    obtain ⟨pn, hpn⟩ := hpn
    have hok := TreeWF.nodeOk h hpn
    rw [nodeOkB, Bool.and_eq_true, Bool.and_eq_true] at hok
    obtain ⟨⟨hmem, _⟩, _⟩ := hok
    cases hv : pn.variation with
    | none => rw [hv] at hmem; simp at hmem
    | some v =>
      rw [hv] at hmem
      have hcontains : (s.varr v).contains p = true := hmem
      have hvl : ∃ l, alook s.arena.vars v = some l := by
        cases hvl : alook s.arena.vars v with
        | none =>
          exfalso
          have : s.varr v = [] := by simp [GameState.varr, Arena.varr, hvl]
          rw [this] at hcontains
          simp at hcontains
        | some l => exact ⟨l, rfl⟩
      obtain ⟨l, hvl⟩ := hvl
      have hvok := TreeWF.varOk h hvl
      rw [varOkB, Bool.and_eq_true, Bool.and_eq_true] at hvok
      have hpl : p ∈ l := by
        have : s.varr v = l := by simp [GameState.varr, Arena.varr, hvl]
        rw [this] at hcontains
        simpa using hcontains
      exact arrayLinks_next s l hvok.1.2 p hpl id hnx

/-- A successful candidate match names a node whose SAN (or whose
from/to/promotion triple) is exactly the candidate. -/
theorem candidateMatches_node {s : GameState} {cand : Candidate} {id : Nat}
    (h : Chess.candidateMatches s cand (some id) = true) :
    ∃ n, s.node id = some n ∧
      (cand = .san n.core.san ∨ cand = .obj n.core.fromSq n.core.toSq n.core.promotion) := by
  unfold Chess.candidateMatches at h
  dsimp only [] at h
  cases hn : s.node id with
  | none => rw [hn] at h; simp at h
  | some n =>
    rw [hn] at h
    refine ⟨n, rfl, ?_⟩
    cases cand with
    | san str =>
      left
      rw [eq_of_beq h]
    | obj f t pr =>
      right
      rw [Bool.and_eq_true, Bool.and_eq_true] at h
      rw [eq_of_beq h.1.1, eq_of_beq h.1.2, eq_of_beq h.2]

/-- A hit of the `getVariation` scan is the head of one of the scanned arrays
and matches the candidate. -/
theorem getVariationScan_some (s : GameState) (cand : Candidate) : ∀ (lvs : List Nat) (ev : Nat),
    Chess.getVariationScan s cand lvs = some ev →
    ∃ v ∈ lvs, (s.varr v).head? = some ev ∧ Chess.candidateMatches s cand (some ev) = true
  | [], ev, h => by simp [Chess.getVariationScan] at h
  | v :: rest, ev, h => by
    rw [Chess.getVariationScan] at h
    cases hh : (s.varr v).head? with
    | none =>
      rw [hh] at h
      obtain ⟨v', hv', hrest⟩ := getVariationScan_some s cand rest ev h
      exact ⟨v', by simp [hv'], hrest⟩
    | some mId =>
      rw [hh] at h
      dsimp only [] at h
      by_cases hcm : Chess.candidateMatches s cand (some mId) = true
      · rw [if_pos hcm] at h
        injection h with h
        subst h
        exact ⟨v, by simp, hh, hcm⟩
      · rw [if_neg hcm] at h
        obtain ⟨v', hv', hrest⟩ := getVariationScan_some s cand rest ev h
        exact ⟨v', by simp [hv'], hrest⟩

/-- An illegal candidate makes `History.addMove` raise. -/
theorem addMove_error (o : Oracle) (s : GameState) (cand : Candidate)
    (previous : Option Nat) (dnm strict : Bool)
    (h : History.validateMove o s cand previous dnm strict = none) :
    History.addMove o s cand previous dnm strict = .error "Invalid move" := by
  unfold History.addMove
  rw [h]

/-- When validation passed with a previous move, that previous move is in the
arena. -/
theorem validateMove_prev_node (o : Oracle) (s : GameState) (cand : Candidate)
    (p : Nat) (dnm strict : Bool)
    (h : History.validateMove o s cand (some p) dnm strict ≠ none) :
    ∃ pn, s.node p = some pn := by
  unfold History.validateMove at h
  dsimp only [] at h
  cases hn : s.node p with
  | none => rw [hn] at h; simp at h
  | some pn => exact ⟨pn, rfl⟩

/-- A legal candidate makes `History.addMove` succeed. -/
theorem addMove_ok (o : Oracle) (s : GameState) (cand : Candidate)
    (previous : Option Nat) (dnm strict : Bool)
    (h : History.validateMove o s cand previous dnm strict ≠ none) :
    ∃ id s', History.addMove o s cand previous dnm strict = .ok (id, s') := by
  unfold History.addMove
  cases hv : History.validateMove o s cand previous dnm strict with
  | none => exact absurd hv h
  | some m0 =>
    dsimp only []
    cases previous with
    | some p =>
      obtain ⟨pn, hpn⟩ := validateMove_prev_node o s cand p dnm strict h
      dsimp only []
      rw [hpn]
      dsimp only []
      cases hnx : pn.next with
      | some pnext => dsimp only []; exact ⟨_, _, rfl⟩
      | none => dsimp only []; exact ⟨_, _, rfl⟩
    | none =>
      dsimp only []
      by_cases hlen : (s.varr s.mainVar).length > 0
      · rw [if_pos hlen]
        cases hhead : (s.varr s.mainVar).head? with
        | none =>
          exfalso
          cases hl : s.varr s.mainVar with
          | nil => rw [hl] at hlen; simp at hlen
          | cons a rest => rw [hl] at hhead; simp at hhead
        | some first =>
          exact ⟨_, _, rfl⟩
      · rw [if_neg hlen]
        exact ⟨_, _, rfl⟩

/-! ## Lemmas about the JS string helpers (for the rendering claims) -/

theorem dropLeadWs_append_cons (x : List Char) (c : Char) (r : List Char)
    (h : wsChar c = false) : ∃ z, dropLeadWs (x ++ c :: r) = z ++ c :: r := by
  induction x with
  | nil => exact ⟨[], by simp [dropLeadWs, h]⟩
  | cons a x ih =>
    by_cases ha : wsChar a
    · simpa [dropLeadWs, ha] using ih
    · exact ⟨a :: x, by simp [dropLeadWs, ha]⟩

theorem dropLeadWs_ws_prefix (t l : List Char) (ht : ∀ c ∈ t, wsChar c = true) :
    dropLeadWs (t ++ l) = dropLeadWs l := by
  induction t with
  | nil => rfl
  | cons a t ih =>
    have ha := ht a (by simp)
    simp only [List.cons_append, dropLeadWs, ha, if_true]
    exact ih (fun c hc => ht c (by simp [hc]))

theorem dropLeadWs_cons_of_neg (c : Char) (l : List Char) (h : wsChar c = false) :
    dropLeadWs (c :: l) = c :: l := by
  simp [dropLeadWs, h]

theorem jsTrim_data_suffix (x r t : List Char) (hr : r ≠ [])
    (hrw : ∀ c ∈ r, wsChar c = false) (ht : ∀ c ∈ t, wsChar c = true) :
    ∃ z, (jsTrim ⟨x ++ r ++ t⟩).data = z ++ r := by
  obtain ⟨c, r', rfl⟩ : ∃ c r', r = c :: r' := by
    cases r with
    | nil => exact absurd rfl hr
    | cons c r' => exact ⟨c, r', rfl⟩
  have hc : wsChar c = false := hrw c (by simp)
  obtain ⟨z1, hz1⟩ := dropLeadWs_append_cons x c (r' ++ t) hc
  refine ⟨z1, ?_⟩
  show (dropLeadWs ((dropLeadWs (x ++ (c :: r') ++ t)).reverse)).reverse = z1 ++ c :: r'
  have hassoc : x ++ (c :: r') ++ t = x ++ c :: (r' ++ t) := by simp
  rw [hassoc, hz1]
  have hrev : (z1 ++ c :: (r' ++ t)).reverse
      = t.reverse ++ ((c :: r').reverse ++ z1.reverse) := by
    simp
  rw [hrev, dropLeadWs_ws_prefix t.reverse _ (by intro cc hcc; exact ht cc (by simpa using hcc))]
  have hccr : ∃ d dr, (c :: r').reverse = d :: dr ∧ wsChar d = false := by
    have hne : (c :: r').reverse ≠ [] := by simp
    cases hh : (c :: r').reverse with
    | nil => exact absurd hh hne
    | cons d dr =>
      refine ⟨d, dr, rfl, ?_⟩
      have hmem : d ∈ (c :: r').reverse := by rw [hh]; simp
      rw [List.mem_reverse] at hmem
      exact hrw d hmem
  obtain ⟨d, dr, hdd, hdws⟩ := hccr
  rw [hdd, List.cons_append, dropLeadWs_cons_of_neg d _ hdws, ← List.cons_append, ← hdd]
  simp

theorem jsJoin_last_suffix (sep : String) : ∀ (l : List String) (x : String),
    ∃ q : String, jsJoin sep (l ++ [x]) = q ++ x
  | [], x => ⟨"", by
      apply String.ext
      simp [jsJoin, String.data_append]⟩
  | [a], x => ⟨a ++ sep, by
      apply String.ext
      simp [jsJoin, String.data_append]⟩
  | a :: b :: l, x => by
    obtain ⟨q, hq⟩ := jsJoin_last_suffix sep (b :: l) x
    refine ⟨a ++ sep ++ q, ?_⟩
    apply String.ext
    have : jsJoin sep (a :: b :: l ++ [x]) = a ++ sep ++ jsJoin sep (b :: l ++ [x]) := by
      simp [jsJoin]
    rw [this, hq]
    simp [String.data_append]

theorem splitChGo_sep_append (sep : Char) : ∀ (xs : List Char) (ys acc : List Char),
    ∃ l, splitChGo sep (xs ++ sep :: ys) acc = l ++ splitChGo sep ys []
  | [], ys, acc => ⟨[⟨acc.reverse⟩], by simp [splitChGo]⟩
  | c :: xs, ys, acc => by
    by_cases hc : c == sep
    · obtain ⟨l, hl⟩ := splitChGo_sep_append sep xs ys []
      exact ⟨⟨acc.reverse⟩ :: l, by simp [splitChGo, hc, hl]⟩
    · obtain ⟨l, hl⟩ := splitChGo_sep_append sep xs ys (c :: acc)
      exact ⟨l, by simp only [List.cons_append, splitChGo, hc, if_false]; simpa using hl⟩

theorem splitChGo_no_sep (sep : Char) : ∀ (l acc : List Char),
    (∀ c ∈ l, (c == sep) = false) → splitChGo sep l acc = [⟨acc.reverse ++ l⟩]
  | [], acc, _ => by simp [splitChGo]
  | c :: l, acc, h => by
    have hc := h c (by simp)
    rw [splitChGo, if_neg (by simp [hc])]
    rw [splitChGo_no_sep sep l (c :: acc) (fun d hd => h d (by simp [hd]))]
    simp

/-- The word list of `wrap` on `h ++ " " ++ res` ends with the word `res`
when `res` contains no space. -/
theorem jsSplitChar_last (h res : String) (hres : ∀ c ∈ res.data, (c == ' ') = false) :
    ∃ l, jsSplitChar ' ' (h ++ " " ++ res) = l ++ [res] := by
  have hdata : (h ++ " " ++ res).data = h.data ++ ' ' :: res.data := by
    simp [String.data_append]
  unfold jsSplitChar
  rw [hdata]
  obtain ⟨l, hl⟩ := splitChGo_sep_append ' ' h.data res.data []
  rw [hl, splitChGo_no_sep ' ' res.data [] hres]
  exact ⟨l, by simp⟩

theorem wrap_tail_case (L : List String) (lineStr res : String) (zz : List Char)
    (hline : lineStr.data = zz ++ res.data ++ [' '])
    (hne : res.data ≠ []) (hws : ∀ c ∈ res.data, wsChar c = false) :
    ∃ p : String, jsJoin "\n" (L ++ [jsTrim lineStr]) = p ++ res := by
  obtain ⟨z, hz⟩ := jsTrim_data_suffix zz res.data [' '] hne hws
    (by intro c hc; simp at hc; rw [hc]; rfl)
  have hstr : lineStr = ⟨zz ++ res.data ++ [' ']⟩ := String.ext hline
  have htrim : jsTrim lineStr = ⟨z⟩ ++ res := by
    apply String.ext
    rw [hstr]
    simpa [String.data_append] using hz
  rw [htrim]
  obtain ⟨q, hq⟩ := jsJoin_last_suffix "\n" L (⟨z⟩ ++ res)
  refine ⟨q ++ ⟨z⟩, ?_⟩
  rw [hq]
  apply String.ext
  simp [String.data_append]

theorem wrap_append_suffix (h res : String) (w : Int) (hne : res.data ≠ [])
    (hws : ∀ c ∈ res.data, wsChar c = false) :
    ∃ p : String, wrap (h ++ " " ++ res) w = p ++ res := by
  unfold wrap
  by_cases hw : w ≤ 0
  · rw [if_pos hw]
    have hdata : (h ++ " " ++ res) = (⟨h.data ++ [' '] ++ res.data ++ []⟩ : String) := by
      apply String.ext; simp [String.data_append]
    rw [hdata]
    obtain ⟨z, hz⟩ := jsTrim_data_suffix (h.data ++ [' ']) res.data [] hne hws (by simp)
    exact ⟨⟨z⟩, String.ext (by simpa [String.data_append] using hz)⟩
  · rw [if_neg hw]
    have hres' : ∀ c ∈ res.data, (c == ' ') = false := by
      intro c hc
      have hcws := hws c hc
      by_cases hceq : c = ' '
      · rw [hceq] at hcws; exact absurd hcws (by decide)
      · exact beq_false_of_ne hceq
    obtain ⟨l, hl⟩ := jsSplitChar_last h res hres'
    simp only [hl, List.foldl_append, List.foldl_cons, List.foldl_nil]
    set A := l.foldl (fun (acc : List String × String) word =>
      if (acc.2.length : Int) + (word.length : Int) < w then
        (acc.1, acc.2 ++ word ++ " ")
      else (acc.1 ++ [jsTrim acc.2], word ++ " ")) ([], "") with hA
    by_cases hfit : (A.2.length : Int) + (res.length : Int) < w
    · rw [if_pos hfit]
      exact wrap_tail_case A.1 (A.2 ++ res ++ " ") res A.2.data
        (by simp [String.data_append]) hne hws
    · rw [if_neg hfit]
      exact wrap_tail_case (A.1 ++ [jsTrim A.2]) (res ++ " ") res []
        (by simp [String.data_append]) hne hws

theorem renderResult_cases (tags : List (String × String)) :
    Pgn.renderResult tags = "1-0" ∨ Pgn.renderResult tags = "0-1" ∨
    Pgn.renderResult tags = "1/2-1/2" ∨ Pgn.renderResult tags = "*" := by
  unfold Pgn.renderResult
  cases hf : tags.find? (fun p => p.1 == "Result") with
  | none => simp
  | some pr =>
    simp only []
    split
    case isTrue hcond =>
      rcases (by simpa [Bool.or_eq_true, beq_iff_eq] using hcond : (_ ∨ _) ∨ _) with (h | h) | h
      · exact Or.inl h
      · exact Or.inr (Or.inl h)
      · exact Or.inr (Or.inr (Or.inl h))
    case isFalse hcond => exact Or.inr (Or.inr (Or.inr rfl))

theorem renderResult_data (tags : List (String × String)) :
    (Pgn.renderResult tags).data ≠ [] ∧
    ∀ c ∈ (Pgn.renderResult tags).data, wsChar c = false := by
  rcases renderResult_cases tags with h | h | h | h <;> rw [h] <;> exact ⟨by decide, by decide⟩

theorem render_ends_with_result (s : GameState) (tags : List (String × String))
    (gc : DComment) (opts : RenderOptions) :
    ∃ p : String, Pgn.render s tags gc opts = p ++ Pgn.renderResult tags := by
  obtain ⟨hne, hws⟩ := renderResult_data tags
  unfold Pgn.render
  obtain ⟨q, hq⟩ := wrap_append_suffix (History.render s opts.toHistoryRenderOptions)
    (Pgn.renderResult tags) (if opts.width == 0 then -1 else opts.width) hne hws
  show ∃ p, (Pgn.renderHeader tags opts ++ Pgn.renderGameComment gc opts) ++
      wrap (History.render s opts.toHistoryRenderOptions ++ " " ++ Pgn.renderResult tags)
        (if (opts.width == 0) = true then -1 else opts.width)
      = p ++ Pgn.renderResult tags
  rw [hq]
  refine ⟨Pgn.renderHeader tags opts ++ Pgn.renderGameComment gc opts ++ q, ?_⟩
  apply String.ext
  simp [String.data_append]

/-! ## Lemmas about FEN tokenization (for the null-move claim) -/

theorem splitWsGo_token (tok : List Char) (h : ∀ c ∈ tok, wsChar c = false) :
    ∀ l acc, splitWsGo (tok ++ l) acc = splitWsGo l (tok.reverse ++ acc) := by
  induction tok with
  | nil => intro l acc; simp
  | cons c t ih =>
    intro l acc
    have hc := h c (by simp)
    rw [List.cons_append, splitWsGo, if_neg (by simp [hc])]
    rw [ih (fun d hd => h d (by simp [hd])) l (c :: acc)]
    simp

theorem splitWsGo_no_ws (l : List Char) (h : ∀ c ∈ l, wsChar c = false) (acc : List Char) :
    splitWsGo l acc = [⟨acc.reverse ++ l⟩] := by
  have := splitWsGo_token l h [] acc
  rw [List.append_nil] at this
  rw [this, splitWsGo]
  simp

theorem splitWsSkip_eq_go (c : Char) (rest : List Char) (hc : wsChar c = false) :
    splitWsSkip (c :: rest) = splitWsGo (c :: rest) [] := by
  rw [splitWsSkip, if_neg (by simp [hc]), splitWsGo, if_neg (by simp [hc])]

theorem jsJoin_cons_data (sep : String) (g : String) (rest : List String) :
    ∃ suf, (jsJoin sep (g :: rest)).data = g.data ++ suf := by
  cases rest with
  | nil => exact ⟨[], by simp [jsJoin]⟩
  | cons r rs => exact ⟨(sep ++ jsJoin sep (r :: rs)).data, by simp [jsJoin, String.data_append]⟩

theorem jsSplitWs_join : ∀ (fields : List String), fields ≠ [] →
    (∀ f ∈ fields, fenField f) → jsSplitWs (jsJoin " " fields) = fields
  | [], h, _ => absurd rfl h
  | [f], _, hgood => by
    obtain ⟨hne, hws⟩ := hgood f (by simp)
    unfold jsSplitWs jsJoin
    rw [splitWsGo_no_ws f.data hws []]
    simp
  | f :: g :: rest, _, hgood => by
    obtain ⟨hne, hws⟩ := hgood f (by simp)
    have ih := jsSplitWs_join (g :: rest) (by simp) (fun x hx => hgood x (by simp [hx]))
    obtain ⟨suf, hsuf⟩ := jsJoin_cons_data " " g rest
    obtain ⟨hgne, hgws⟩ := hgood g (by simp)
    obtain ⟨c, gr, hg⟩ : ∃ c gr, g.data = c :: gr := by
      cases hgd : g.data with
      | nil => exact absurd hgd hgne
      | cons c gr => exact ⟨c, gr, rfl⟩
    have hc : wsChar c = false := hgws c (by rw [hg]; simp)
    have hdata : (jsJoin " " (f :: g :: rest)).data
        = f.data ++ ' ' :: (jsJoin " " (g :: rest)).data := by
      show (f ++ " " ++ jsJoin " " (g :: rest)).data = _
      simp [String.data_append]
    unfold jsSplitWs at ih ⊢
    rw [hdata, splitWsGo_token f.data hws _ []]
    rw [show splitWsGo (' ' :: (jsJoin " " (g :: rest)).data) (f.data.reverse ++ [])
        = (⟨(f.data.reverse ++ []).reverse⟩ : String) :: splitWsSkip ((jsJoin " " (g :: rest)).data)
      from by rw [splitWsGo]; simp [wsChar]]
    have hskip : splitWsSkip ((jsJoin " " (g :: rest)).data)
        = splitWsGo ((jsJoin " " (g :: rest)).data) [] := by
      rw [hsuf, hg]
      exact splitWsSkip_eq_go c (gr ++ suf) hc
    rw [hskip, ih]
    simp
  termination_by fields => fields.length

/-- Over a well-formed six-field FEN, `switchTurn` flips the side-to-move
field, clears the en passant field to `-`, and leaves the other four fields
unchanged. -/
theorem switchTurn_fields (f0 f1 f2 f3 f4 f5 : String)
    (h : ∀ f ∈ [f0, f1, f2, f3, f4, f5], fenField f) :
    switchTurn (jsJoin " " [f0, f1, f2, f3, f4, f5])
      = some (jsJoin " " [f0, if f1 = "w" then "b" else "w", f2, "-", f4, f5]) := by
  unfold switchTurn
  rw [jsSplitWs_join [f0, f1, f2, f3, f4, f5] (by simp) h]
  by_cases h1 : f1 = "w"
  · simp [h1, List.set]
  · rw [if_neg (by simp [List.get?, h1])]
    simp [List.set, h1]

/-- With no options, a null move from a position that is neither check nor
over, with both kings on the board, succeeds and returns the
side-switched FEN. -/
theorem getNullMove_ok (o : Oracle) (fen after ks1 ks2 : String)
    (hc : o.isCheck fen = false) (hg : o.isGameOver fen = false)
    (hsw : switchTurn fen = some after)
    (hk1 : o.kingSquare fen (fenTurn fen) = some ks1)
    (hk2 : o.kingSquare fen (if fenTurn fen == "w" then "b" else "w") = some ks2) :
    getNullMove o fen {} = some
      { color := fenTurn fen, fromSq := ks1, toSq := ks2, piece := "k",
        captured := none, promotion := none, san := "Z0", lan := "Z0",
        before := fen, after := after } := by
  unfold getNullMove
  rw [if_neg (by simp), if_neg (by simp [hc, hg]), hsw]
  simp only [hk1, hk2]
  rfl

/-- With no options, a null move from a position in check or from a finished
game is rejected. -/
theorem getNullMove_rejected (o : Oracle) (fen : String) (dnm : Bool)
    (h : o.isCheck fen = true ∨ o.isGameOver fen = true) :
    getNullMove o fen { disableNullMoves := dnm } = none := by
  unfold getNullMove
  rcases h with h | h <;> cases dnm <;> simp [h]

/-- A successful `History.validateMove` returns a detached move: no previous,
no next, no owning array, no variations. -/
theorem validateMove_detached (o : Oracle) (s : GameState) (cand : Candidate)
    (previous : Option Nat) (dnm strict : Bool) :
    ∀ m, History.validateMove o s cand previous dnm strict = some m →
      m.previous = none ∧ m.next = none ∧ m.variation = none ∧ m.variations = [] := by
  intro m hm
  unfold History.validateMove at hm
  cases previous with
  | some p =>
    dsimp only [] at hm
    cases hn : s.node p with
    | none => rw [hn] at hm; exact absurd hm (by simp)
    | some pn =>
      rw [hn] at hm
      simp only [] at hm
      cases hcj : (if isNullMove o cand pn.fen then
          getNullMove o pn.fen { disableNullMoves := dnm }
        else o.move pn.fen cand strict) with
      | none => rw [hcj] at hm; exact absurd hm (by simp)
      | some cj =>
        rw [hcj] at hm
        simp only [Option.some.injEq] at hm
        subst hm
        exact ⟨rfl, rfl, rfl, rfl⟩
  | none =>
    dsimp only [] at hm
    cases hcj : (if isNullMove o cand s.setUpFen then
        getNullMove o s.setUpFen { disableNullMoves := dnm }
      else o.move s.setUpFen cand strict) with
    | none => rw [hcj] at hm; exact absurd hm (by simp)
    | some cj =>
      rw [hcj] at hm
      simp only [Option.some.injEq] at hm
      subst hm
      exact ⟨rfl, rfl, rfl, rfl⟩

/-! ## Arena lookup lemmas and state congruences (for the idempotence claim) -/

theorem alook_append {α : Type} :
    ∀ (l1 l2 : List (Nat × α)) (x : Nat),
    alook (l1 ++ l2) x
      = match alook l1 x with | some w => some w | none => alook l2 x
  | [], l2, x => by rw [List.nil_append]; rfl
  | (k, v) :: rest, l2, x => by
    rw [List.cons_append, alook, alook]
    by_cases hk : k = x
    · rw [if_pos hk, if_pos hk]
    · rw [if_neg hk, if_neg hk]
      exact alook_append rest l2 x

theorem alook_amod {α : Type} (k : Nat) (f : α → α) :
    ∀ (l : List (Nat × α)) (x : Nat),
    alook (amod l k f) x = if x = k then (alook l k).map f else alook l x
  | [], x => by
    rw [amod]
    by_cases hx : x = k
    · rw [if_pos hx]; rfl
    · rw [if_neg hx]
  | (k', v) :: rest, x => by
    by_cases hk : k' = k
    · subst hk
      by_cases hx : k' = x
      · subst hx
        simp [amod, alook]
      · simp [amod, alook, hx, Ne.symm hx]
    · by_cases hx : k' = x
      · subst hx
        simp [amod, alook, hk, Ne.symm hk]
      · simp [amod, alook, hk, hx, alook_amod k f rest x]

theorem alook_none_of_bound {α : Type} (n : Nat) :
    ∀ (l : List (Nat × α)), (∀ p ∈ l, p.1 < n) → alook l n = none
  | [], _ => rfl
  | (k, v) :: rest, h => by
    rw [alook]
    have hk : k < n := h (k, v) (by simp)
    rw [if_neg (Nat.ne_of_lt hk)]
    exact alook_none_of_bound n rest (fun p hp => h p (List.mem_cons_of_mem _ hp))

theorem TreeWF.nodesBound {s : GameState} (h : TreeWF s = true) {id : Nat} {n : MNode}
    (hn : s.node id = some n) : id < s.arena.nextNode := by
  rw [TreeWF] at h
  repeat rw [Bool.and_eq_true] at h
  exact of_decide_eq_true (List.all_eq_true.mp h.1.1.1.1.2 (id, n) (alook_mem _ _ _ hn))

theorem TreeWF.varsBound {s : GameState} (h : TreeWF s = true) {v : Nat} {l : List Nat}
    (hv : alook s.arena.vars v = some l) : v < s.arena.nextVar := by
  rw [TreeWF] at h
  repeat rw [Bool.and_eq_true] at h
  exact of_decide_eq_true (List.all_eq_true.mp h.1.1.1.2 (v, l) (alook_mem _ _ _ hv))

theorem TreeWF.freshNode {s : GameState} (h : TreeWF s = true) :
    alook s.arena.nodes s.arena.nextNode = none := by
  apply alook_none_of_bound
  intro q hq
  rw [TreeWF] at h
  repeat rw [Bool.and_eq_true] at h
  exact of_decide_eq_true (List.all_eq_true.mp h.1.1.1.1.2 q hq)

theorem TreeWF.freshVar {s : GameState} (h : TreeWF s = true) :
    alook s.arena.vars s.arena.nextVar = none := by
  apply alook_none_of_bound
  intro q hq
  rw [TreeWF] at h
  repeat rw [Bool.and_eq_true] at h
  exact of_decide_eq_true (List.all_eq_true.mp h.1.1.1.2 q hq)

theorem TreeWF.mainReg {s : GameState} (h : TreeWF s = true) :
    ∃ lm, alook s.arena.vars s.mainVar = some lm := by
  rw [TreeWF] at h
  repeat rw [Bool.and_eq_true] at h
  exact Option.isSome_iff_exists.mp h.1.1.2

/-- `Chess.seek`/`publish` touch only the event stream and the current-move
pointer, so the tree-reading functions factor through them. -/
theorem nextMove_sp (s : GameState) (e : EventRec) (m p : Option Nat) :
    Chess.nextMove (Chess.seek (publish s e) m) p = Chess.nextMove s p := rfl

theorem candidateMatches_sp (s : GameState) (e : EventRec) (m : Option Nat)
    (cand : Candidate) (x : Option Nat) :
    Chess.candidateMatches (Chess.seek (publish s e) m) cand x
      = Chess.candidateMatches s cand x := rfl

theorem candidateMatches_arena (s t : GameState) (ha : t.arena = s.arena)
    (cand : Candidate) (x : Option Nat) :
    Chess.candidateMatches t cand x = Chess.candidateMatches s cand x := by
  unfold Chess.candidateMatches
  cases x with
  | none => rfl
  | some id =>
    dsimp only []
    have hn : t.node id = s.node id := by
      unfold GameState.node Arena.node
      rw [ha]
    rw [hn]

theorem getVariationScan_arena (s t : GameState) (ha : t.arena = s.arena)
    (cand : Candidate) : ∀ (l : List Nat),
    Chess.getVariationScan t cand l = Chess.getVariationScan s cand l
  | [] => rfl
  | v :: rest => by
    rw [Chess.getVariationScan, Chess.getVariationScan]
    have hv : t.varr v = s.varr v := by
      unfold GameState.varr Arena.varr
      rw [ha]
    rw [hv]
    cases (s.varr v).head? with
    | none => exact getVariationScan_arena s t ha cand rest
    | some mId =>
      dsimp only []
      rw [candidateMatches_arena s t ha, getVariationScan_arena s t ha cand rest]

theorem nextMove_arena (s t : GameState) (ha : t.arena = s.arena)
    (hm : t.mainVar = s.mainVar) (p : Option Nat) :
    Chess.nextMove t p = Chess.nextMove s p := by
  cases p with
  | none =>
    unfold Chess.nextMove Chess.firstMove GameState.varr Arena.varr
    rw [ha, hm]
  | some id =>
    unfold Chess.nextMove nodeNextF GameState.node Arena.node
    rw [ha]

theorem getVariation_arena (s t : GameState) (ha : t.arena = s.arena)
    (hm : t.mainVar = s.mainVar) (cand : Candidate) (p : Option Nat) :
    Chess.getVariation t cand p = Chess.getVariation s cand p := by
  unfold Chess.getVariation
  rw [nextMove_arena s t ha hm]
  cases Chess.nextMove s p with
  | none => rfl
  | some nm =>
    dsimp only []
    have hn : t.node nm = s.node nm := by
      unfold GameState.node Arena.node
      rw [ha]
    rw [hn]
    cases s.node nm with
    | none => rfl
    | some n =>
      dsimp only []
      exact getVariationScan_arena s t ha cand n.variations

theorem getVariation_sp (s : GameState) (e : EventRec) (m : Option Nat)
    (cand : Candidate) (p : Option Nat) :
    Chess.getVariation (Chess.seek (publish s e) m) cand p
      = Chess.getVariation s cand p :=
  getVariation_arena s (Chess.seek (publish s e) m) rfl rfl cand p

theorem arena_sp (s : GameState) (e : EventRec) (m : Option Nat) :
    (Chess.seek (publish s e) m).arena = s.arena := rfl

theorem nextMove_pub (s : GameState) (e : EventRec) (p : Option Nat) :
    Chess.nextMove (publish s e) p = Chess.nextMove s p := rfl

theorem candidateMatches_pub (s : GameState) (e : EventRec)
    (cand : Candidate) (x : Option Nat) :
    Chess.candidateMatches (publish s e) cand x = Chess.candidateMatches s cand x := rfl

theorem getVariation_pub (s : GameState) (e : EventRec)
    (cand : Candidate) (p : Option Nat) :
    Chess.getVariation (publish s e) cand p = Chess.getVariation s cand p :=
  getVariation_arena s (publish s e) rfl rfl cand p

theorem validateMove_pub (o : Oracle) (s : GameState) (e : EventRec)
    (cand : Candidate) (prev : Option Nat) (dnm strict : Bool) :
    History.validateMove o (publish s e) cand prev dnm strict
      = History.validateMove o s cand prev dnm strict := rfl

/-! ## Structural extraction lemmas for the idempotence claim -/

theorem nodeOk_variation {s : GameState} {id : Nat} {n : MNode}
    (h : nodeOkB s id n = true) :
    ∃ v, n.variation = some v ∧ (s.varr v).contains id = true := by
  rw [nodeOkB, Bool.and_eq_true, Bool.and_eq_true] at h
  have h1 := h.1.1
  cases hv : n.variation with
  | none => rw [hv] at h1; exact absurd h1 (by simp)
  | some v => rw [hv] at h1; exact ⟨v, rfl, h1⟩

theorem nodeOk_variations_reg {s : GameState} {id : Nat} {n : MNode}
    (h : nodeOkB s id n = true) {w : Nat} (hw : w ∈ n.variations) :
    ∃ lw, alook s.arena.vars w = some lw := by
  rw [nodeOkB, Bool.and_eq_true, Bool.and_eq_true] at h
  have h3 := List.all_eq_true.mp h.2 w hw
  rw [Bool.and_eq_true] at h3
  exact Option.isSome_iff_exists.mp h3.1

theorem varr_contains_reg {s : GameState} {v id : Nat}
    (h : (s.varr v).contains id = true) :
    alook s.arena.vars v = some (s.varr v) := by
  cases hl : alook s.arena.vars v with
  | some l =>
    unfold GameState.varr Arena.varr
    rw [hl]
    rfl
  | none =>
    exfalso
    unfold GameState.varr Arena.varr at h
    rw [hl] at h
    simp at h

theorem varOk_member {s : GameState} {v : Nat} {l : List Nat}
    (h : varOkB s v l = true) {id : Nat} (hid : id ∈ l) :
    ∃ n, s.node id = some n ∧ n.variation = some v := by
  rw [varOkB, Bool.and_eq_true, Bool.and_eq_true] at h
  have hm := List.all_eq_true.mp h.1.1 id hid
  rw [memberOkB] at hm
  cases hn : s.node id with
  | none => rw [hn] at hm; simp at hm
  | some n =>
    rw [hn] at hm
    exact ⟨n, rfl, eq_of_beq hm⟩

theorem varOk_links {s : GameState} {v : Nat} {l : List Nat}
    (h : varOkB s v l = true) : arrayLinksB s l = true := by
  rw [varOkB, Bool.and_eq_true, Bool.and_eq_true] at h
  exact h.1.2

theorem arrayLinks_next_mem (s : GameState) : ∀ (l : List Nat),
    arrayLinksB s l = true → ∀ a ∈ l, ∀ b, nodeNextF s a = some b → b ∈ l
  | [], _, a, ha, _, _ => by simp at ha
  | [x], hl, a, ha, b, hb => by
    simp at ha
    subst ha
    rw [show arrayLinksB s [a] = (nodeNextF s a == none) from rfl] at hl
    rw [eq_of_beq hl] at hb
    exact absurd hb (by simp)
  | x :: y :: rest, hl, a, ha, b, hb => by
    rw [show arrayLinksB s (x :: y :: rest)
      = (nodeNextF s x == some y && nodePrev s y == some x && arrayLinksB s (y :: rest)) from rfl,
      Bool.and_eq_true, Bool.and_eq_true] at hl
    rcases List.mem_cons.mp ha with h | h
    · subst h
      rw [eq_of_beq hl.1.1] at hb
      injection hb with hb
      subst hb
      simp
    · exact List.mem_cons_of_mem _ (arrayLinks_next_mem s (y :: rest) hl.2 a h b hb)

theorem candidateMatches_eq_core (s1 s2 : GameState) (cand : Candidate) (m1 m2 : Nat)
    (h : (s1.node m1).map (fun n => n.core) = (s2.node m2).map (fun n => n.core)) :
    Chess.candidateMatches s1 cand (some m1) = Chess.candidateMatches s2 cand (some m2) := by
  unfold Chess.candidateMatches
  dsimp only []
  cases h1 : s1.node m1 with
  | none =>
    rw [h1] at h
    cases h2 : s2.node m2 with
    | none => rfl
    | some n2 => rw [h2] at h; simp at h
  | some n1 =>
    rw [h1] at h
    cases h2 : s2.node m2 with
    | none => rw [h2] at h; simp at h
    | some n2 =>
      rw [h2] at h
      simp at h
      dsimp only []
      cases cand with
      | san str => dsimp only []; rw [h]
      | obj f t pr => dsimp only []; rw [h]

theorem getVariationScan_append (s : GameState) (cand : Candidate) :
    ∀ (l1 l2 : List Nat),
    Chess.getVariationScan s cand (l1 ++ l2)
      = match Chess.getVariationScan s cand l1 with
        | some x => some x
        | none => Chess.getVariationScan s cand l2
  | [], l2 => by rw [List.nil_append]; rfl
  | v :: rest, l2 => by
    rw [List.cons_append, Chess.getVariationScan, Chess.getVariationScan]
    cases hh : (s.varr v).head? with
    | none => exact getVariationScan_append s cand rest l2
    | some mId =>
      dsimp only []
      by_cases hc : Chess.candidateMatches s cand (some mId) = true
      · rw [if_pos hc, if_pos hc]
      · rw [if_neg hc, if_neg hc]
        exact getVariationScan_append s cand rest l2

theorem getVariationScan_congr (s1 s2 : GameState) (cand : Candidate) :
    ∀ (l : List Nat),
    (∀ v ∈ l, s1.varr v = s2.varr v) →
    (∀ v ∈ l, ∀ mId, (s2.varr v).head? = some mId →
        Chess.candidateMatches s1 cand (some mId) = Chess.candidateMatches s2 cand (some mId)) →
    Chess.getVariationScan s1 cand l = Chess.getVariationScan s2 cand l
  | [], _, _ => rfl
  | v :: rest, hv, hc => by
    rw [Chess.getVariationScan, Chess.getVariationScan]
    rw [hv v (by simp)]
    cases hh : (s2.varr v).head? with
    | none =>
      exact getVariationScan_congr s1 s2 cand rest
        (fun w hw => hv w (List.mem_cons_of_mem _ hw))
        (fun w hw => hc w (List.mem_cons_of_mem _ hw))
    | some mId =>
      dsimp only []
      rw [hc v (by simp) mId hh]
      by_cases hcm : Chess.candidateMatches s2 cand (some mId) = true
      · rw [if_pos hcm, if_pos hcm]
      · rw [if_neg hcm, if_neg hcm]
        exact getVariationScan_congr s1 s2 cand rest
          (fun w hw => hv w (List.mem_cons_of_mem _ hw))
          (fun w hw => hc w (List.mem_cons_of_mem _ hw))

theorem addMove_error_validate (o : Oracle) (s : GameState) (cand : Candidate)
    (prev : Option Nat) (dnm strict : Bool) (msg : String)
    (h : History.addMove o s cand prev dnm strict = .error msg) :
    History.validateMove o s cand prev dnm strict = none := by
  by_contra hv
  obtain ⟨id, s1, hok⟩ := addMove_ok o s cand prev dnm strict hv
  rw [hok] at h
  exact Except.noConfusion h

/-! ## The branches of `Chess.move` with the source's option defaults -/

theorem move_match_eq (o : Oracle) (t : GameState) (cand : Candidate) (prev : Option Nat)
    (strict : Bool)
    (hm : Chess.candidateMatches t cand (Chess.nextMove t prev) = true) :
    Chess.move o t cand prev strict false false
      = (Chess.nextMove t prev,
         Chess.seek
           (publish t
             { type := .LegalMove, move := Chess.nextMove t prev, previousMove := prev })
           (Chess.nextMove t prev)) := by
  unfold Chess.move
  dsimp only []
  rw [hm]
  rfl

theorem move_getvar_eq (o : Oracle) (t : GameState) (cand : Candidate) (prev : Option Nat)
    (strict : Bool) (ev : Nat)
    (hm : Chess.candidateMatches t cand (Chess.nextMove t prev) = false)
    (hg : Chess.getVariation t cand prev = some ev) :
    Chess.move o t cand prev strict false false
      = (some ev,
         Chess.seek
           (publish t { type := .LegalMove, move := some ev, previousMove := prev })
           (some ev)) := by
  unfold Chess.move
  dsimp only []
  rw [hm, hg]
  rfl

theorem move_add_eq (o : Oracle) (t : GameState) (cand : Candidate) (prev : Option Nat)
    (strict : Bool) (id : Nat) (t1 : GameState)
    (hm : Chess.candidateMatches t cand (Chess.nextMove t prev) = false)
    (hg : Chess.getVariation t cand prev = none)
    (hok : History.addMove o t cand prev t.disableNullMoves strict = .ok (id, t1)) :
    Chess.move o t cand prev strict false false
      = (some id,
         Chess.seek
           (publish t1 { type := .NewVariation, move := some id, previousMove := prev })
           (some id)) := by
  unfold Chess.move
  dsimp only []
  rw [hm, hg, hok]
  rfl

theorem move_err_eq (o : Oracle) (t : GameState) (cand : Candidate) (prev : Option Nat)
    (strict : Bool) (msg : String)
    (hm : Chess.candidateMatches t cand (Chess.nextMove t prev) = false)
    (hg : Chess.getVariation t cand prev = none)
    (herr : History.addMove o t cand prev t.disableNullMoves strict = .error msg) :
    Chess.move o t cand prev strict false false
      = (none,
         publish t { type := .IllegalMove, cand := some cand, previousMove := prev }) := by
  unfold Chess.move
  dsimp only []
  rw [hm, hg, herr]
  rfl

/-! ## The explicit result of a successful `History.addMove` -/

theorem addMove_shape_next (o : Oracle) (s : GameState) (cand : Candidate) (p pnext : Nat)
    (dnm strict : Bool) (m0 pn : MNode)
    (hv : History.validateMove o s cand (some p) dnm strict = some m0)
    (hpn : s.node p = some pn) (hnx : pn.next = some pnext) :
    History.addMove o s cand (some p) dnm strict
      = .ok (s.arena.nextNode,
          { s with arena := addBranchArena s pnext { m0 with previous := some p } }) := by
  unfold History.addMove
  rw [hv]
  dsimp only []
  rw [hpn]
  dsimp only []
  rw [hnx]
  dsimp only [Arena.addVar, Arena.addNode, Arena.modNode, Arena.modVar, addBranchArena]

theorem addMove_shape_leaf (o : Oracle) (s : GameState) (cand : Candidate) (p v : Nat)
    (dnm strict : Bool) (m0 pn : MNode)
    (hv : History.validateMove o s cand (some p) dnm strict = some m0)
    (hpn : s.node p = some pn) (hnx : pn.next = none) (hvv : pn.variation = some v) :
    History.addMove o s cand (some p) dnm strict
      = .ok (s.arena.nextNode,
          { s with arena := addTipArena s p v { m0 with previous := some p } }) := by
  unfold History.addMove
  rw [hv]
  dsimp only []
  rw [hpn]
  dsimp only []
  rw [hnx]
  dsimp only []
  rw [hvv]
  dsimp only [Arena.addNode, Arena.modNode, Arena.modVar, addTipArena]

theorem addMove_shape_root_var (o : Oracle) (s : GameState) (cand : Candidate)
    (dnm strict : Bool) (m0 : MNode) (first : Nat)
    (hv : History.validateMove o s cand none dnm strict = some m0)
    (hlen : (s.varr s.mainVar).length > 0)
    (hhead : (s.varr s.mainVar).head? = some first) :
    History.addMove o s cand none dnm strict
      = .ok (s.arena.nextNode,
          { s with arena := addBranchArena s first { m0 with previous := none } }) := by
  unfold History.addMove
  rw [hv]
  dsimp only []
  rw [if_pos hlen, hhead]
  dsimp only [Arena.addVar, Arena.addNode, Arena.modNode, Arena.modVar, addBranchArena]

theorem addMove_shape_root_empty (o : Oracle) (s : GameState) (cand : Candidate)
    (dnm strict : Bool) (m0 : MNode)
    (hv : History.validateMove o s cand none dnm strict = some m0)
    (hlen : ¬ (s.varr s.mainVar).length > 0) :
    History.addMove o s cand none dnm strict
      = .ok (s.arena.nextNode,
          { s with arena := addRootArena s { m0 with previous := none } }) := by
  unfold History.addMove
  rw [hv]
  dsimp only []
  rw [if_neg hlen]
  dsimp only [Arena.addNode, Arena.modVar, addRootArena]

/-! ## Reading the tree after a successful `addMove` -/

theorem head_mem {α : Type} {l : List α} {a : α} (h : l.head? = some a) : a ∈ l := by
  cases l with
  | nil => exact absurd h (by simp)
  | cons b t =>
    rw [List.head?] at h
    injection h with h
    rw [h]
    simp

theorem branch_node_eq (s : GameState) (q x : Nat) (m1 : MNode)
    (hqb : q < s.arena.nextNode) (hfresh : alook s.arena.nodes s.arena.nextNode = none)
    (hx : x ≠ s.arena.nextNode) :
    ({ s with arena := addBranchArena s q m1 } : GameState).node x
      = if x = q
        then (s.node x).map
          (fun n => { n with variations := n.variations ++ [s.arena.nextVar] })
        else s.node x := by
  show alook (addBranchArena s q m1).nodes x
    = if x = q
      then (alook s.arena.nodes x).map
        (fun n => { n with variations := n.variations ++ [s.arena.nextVar] })
      else alook s.arena.nodes x
  dsimp only [addBranchArena]
  rw [alook_append, alook_amod]
  by_cases hq : x = q
  · subst hq
    rw [if_pos rfl]
    cases hl : alook s.arena.nodes x with
    | some w => rfl
    | none => simp [alook, Ne.symm hx]
  · rw [if_neg hq, if_neg hq]
    cases hl : alook s.arena.nodes x with
    | some w => rfl
    | none =>
      dsimp only []
      rw [alook, if_neg (fun h => hx h.symm)]
      rfl

theorem branch_node_new (s : GameState) (q : Nat) (m1 : MNode)
    (hqb : q < s.arena.nextNode) (hfresh : alook s.arena.nodes s.arena.nextNode = none) :
    ({ s with arena := addBranchArena s q m1 } : GameState).node s.arena.nextNode
      = some { m1 with variation := some s.arena.nextVar } := by
  show alook (addBranchArena s q m1).nodes s.arena.nextNode = _
  dsimp only [addBranchArena]
  rw [alook_append, alook_amod, if_neg (Nat.ne_of_gt hqb), hfresh]
  dsimp only []
  rw [alook, if_pos rfl]

theorem branch_varr_eq (s : GameState) (q y : Nat) (m1 : MNode)
    (hfresh : alook s.arena.vars s.arena.nextVar = none)
    (hy : y ≠ s.arena.nextVar) :
    ({ s with arena := addBranchArena s q m1 } : GameState).varr y = s.varr y := by
  show ((alook (addBranchArena s q m1).vars y).getD [])
    = ((alook s.arena.vars y).getD [])
  dsimp only [addBranchArena]
  rw [alook_amod, if_neg hy, alook_append]
  cases hl : alook s.arena.vars y with
  | some w => rfl
  | none =>
    dsimp only []
    rw [alook, if_neg (fun h => hy h.symm)]
    rfl

theorem branch_varr_new (s : GameState) (q : Nat) (m1 : MNode)
    (hfresh : alook s.arena.vars s.arena.nextVar = none) :
    ({ s with arena := addBranchArena s q m1 } : GameState).varr s.arena.nextVar
      = [s.arena.nextNode] := by
  show ((alook (addBranchArena s q m1).vars s.arena.nextVar).getD []) = _
  dsimp only [addBranchArena]
  rw [alook_amod, if_pos rfl, alook_append, hfresh]
  dsimp only []
  rw [alook, if_pos rfl]
  rfl

/-! ## After `addMove`, the facade finds the new move again -/

theorem second_tip (s : GameState) (cand : Candidate) (p v : Nat) (m1 pn : MNode)
    (hwf : TreeWF s = true) (hpn : s.node p = some pn)
    (hechoM : candMatchesCore cand m1.core = true) :
    Chess.nextMove { s with arena := addTipArena s p v m1 } (some p)
      = some s.arena.nextNode ∧
    Chess.candidateMatches { s with arena := addTipArena s p v m1 } cand
      (some s.arena.nextNode) = true := by
  have hpb : p < s.arena.nextNode := TreeWF.nodesBound hwf hpn
  have hfresh : alook s.arena.nodes s.arena.nextNode = none := TreeWF.freshNode hwf
  have hpn' : alook s.arena.nodes p = some pn := hpn
  have hN : ({ s with arena := addTipArena s p v m1 } : GameState).node s.arena.nextNode
      = some { m1 with variation := some v } := by
    show alook (addTipArena s p v m1).nodes s.arena.nextNode = _
    dsimp only [addTipArena]
    rw [alook_amod, if_neg (Nat.ne_of_gt hpb), alook_append, hfresh]
    dsimp only []
    rw [alook, if_pos rfl]
  constructor
  · show nodeNextF { s with arena := addTipArena s p v m1 } p = some s.arena.nextNode
    unfold nodeNextF GameState.node Arena.node
    show (alook (addTipArena s p v m1).nodes p).bind _ = _
    dsimp only [addTipArena]
    rw [alook_amod, if_pos rfl, alook_append, hpn']
    rfl
  · unfold Chess.candidateMatches
    dsimp only []
    rw [hN]
    dsimp only []
    cases cand with
    | san str => exact hechoM
    | obj f t pr => exact hechoM

theorem second_branch_core (s : GameState) (cand : Candidate) (q : Nat) (m1 qn : MNode)
    (hwf : TreeWF s = true) (hqn : s.node q = some qn)
    (hscan : Chess.getVariationScan s cand qn.variations = none)
    (hcm : Chess.candidateMatches s cand (some q) = false)
    (hechoM : candMatchesCore cand m1.core = true) :
    Chess.candidateMatches { s with arena := addBranchArena s q m1 } cand (some q) = false ∧
    (∀ prevN : Option Nat,
      Chess.nextMove { s with arena := addBranchArena s q m1 } prevN = some q →
      Chess.getVariation { s with arena := addBranchArena s q m1 } cand prevN
        = some s.arena.nextNode) := by
  have hqb : q < s.arena.nextNode := TreeWF.nodesBound hwf hqn
  have hfreshN : alook s.arena.nodes s.arena.nextNode = none := TreeWF.freshNode hwf
  have hfreshV : alook s.arena.vars s.arena.nextVar = none := TreeWF.freshVar hwf
  have hqn' : alook s.arena.nodes q = some qn := hqn
  have hok := TreeWF.nodeOk hwf hqn
  -- the modified branch node
  have hq1 : ({ s with arena := addBranchArena s q m1 } : GameState).node q
      = some { qn with variations := qn.variations ++ [s.arena.nextVar] } := by
    rw [branch_node_eq s q q m1 hqb hfreshN (Nat.ne_of_lt hqb), if_pos rfl, hqn]
    rfl
  -- the new node
  have hN : ({ s with arena := addBranchArena s q m1 } : GameState).node s.arena.nextNode
      = some { m1 with variation := some s.arena.nextVar } :=
    branch_node_new s q m1 hqb hfreshN
  -- candidate matching is unchanged away from the fresh node
  have hcands : ∀ mId : Nat, mId ≠ s.arena.nextNode →
      Chess.candidateMatches { s with arena := addBranchArena s q m1 } cand (some mId)
        = Chess.candidateMatches s cand (some mId) := by
    intro mId hmid
    apply candidateMatches_eq_core
    rw [branch_node_eq s q mId m1 hqb hfreshN hmid]
    by_cases hmq : mId = q
    · subst hmq
      rw [if_pos rfl, hqn]
      rfl
    · rw [if_neg hmq]
  have hcmq : Chess.candidateMatches { s with arena := addBranchArena s q m1 } cand (some q)
      = false := by
    rw [hcands q (Nat.ne_of_lt hqb)]
    exact hcm
  have hcmN : Chess.candidateMatches { s with arena := addBranchArena s q m1 } cand
      (some s.arena.nextNode) = true := by
    unfold Chess.candidateMatches
    dsimp only []
    rw [hN]
    dsimp only []
    cases cand with
    | san str => exact hechoM
    | obj f t pr => exact hechoM
  refine ⟨hcmq, ?_⟩
  intro prevN hnm
  unfold Chess.getVariation
  rw [hnm]
  dsimp only []
  rw [hq1]
  dsimp only []
  rw [getVariationScan_append]
  have hvagree : ∀ w ∈ qn.variations,
      ({ s with arena := addBranchArena s q m1 } : GameState).varr w = s.varr w := by
    intro w hw
    obtain ⟨lw, hlw⟩ := nodeOk_variations_reg hok hw
    exact branch_varr_eq s q w m1 hfreshV (Nat.ne_of_lt (TreeWF.varsBound hwf hlw))
  have hcagree : ∀ w ∈ qn.variations, ∀ mId, (s.varr w).head? = some mId →
      Chess.candidateMatches { s with arena := addBranchArena s q m1 } cand (some mId)
        = Chess.candidateMatches s cand (some mId) := by
    intro w hw mId hmid
    obtain ⟨lw, hlw⟩ := nodeOk_variations_reg hok hw
    have hvw : s.varr w = lw := by
      unfold GameState.varr Arena.varr
      rw [hlw]
      rfl
    have hmem : mId ∈ lw := by
      rw [hvw] at hmid
      exact head_mem hmid
    obtain ⟨mn, hmn, _⟩ := varOk_member (TreeWF.varOk hwf hlw) hmem
    exact hcands mId (Nat.ne_of_lt (TreeWF.nodesBound hwf hmn))
  have hold : Chess.getVariationScan { s with arena := addBranchArena s q m1 } cand
      qn.variations = none := by
    rw [getVariationScan_congr { s with arena := addBranchArena s q m1 } s cand
      qn.variations hvagree hcagree]
    exact hscan
  rw [hold]
  rw [Chess.getVariationScan, branch_varr_new s q m1 hfreshV, List.head?_cons]
  dsimp only []
  rw [if_pos hcmN]

theorem second_root_empty (s : GameState) (cand : Candidate) (m1 : MNode)
    (hwf : TreeWF s = true) (hnil : s.varr s.mainVar = [])
    (hechoM : candMatchesCore cand m1.core = true) :
    Chess.nextMove { s with arena := addRootArena s m1 } none = some s.arena.nextNode ∧
    Chess.candidateMatches { s with arena := addRootArena s m1 } cand
      (some s.arena.nextNode) = true := by
  obtain ⟨lm, hlm⟩ := TreeWF.mainReg hwf
  have hlmnil : lm = [] := by
    have h1 : s.varr s.mainVar = lm := by
      unfold GameState.varr Arena.varr
      rw [hlm]
      rfl
    rw [hnil] at h1
    exact h1.symm
  subst hlmnil
  constructor
  · show (({ s with arena := addRootArena s m1 } : GameState).varr s.mainVar).head?
      = some s.arena.nextNode
    show ((alook (addRootArena s m1).vars s.mainVar).getD []).head? = _
    dsimp only [addRootArena]
    rw [alook_amod, if_pos rfl, hlm]
    rfl
  · unfold Chess.candidateMatches
    dsimp only []
    have hN : ({ s with arena := addRootArena s m1 } : GameState).node s.arena.nextNode
        = some { m1 with variation := some s.mainVar } := by
      show alook (addRootArena s m1).nodes s.arena.nextNode = _
      dsimp only [addRootArena]
      rw [alook_append, TreeWF.freshNode hwf]
      dsimp only []
      rw [alook, if_pos rfl]
    rw [hN]
    dsimp only []
    cases cand with
    | san str => exact hechoM
    | obj f t pr => exact hechoM

theorem move_idem_ok (o : Oracle) (s t1 : GameState) (cand : Candidate) (prev : Option Nat)
    (strict : Bool) (id : Nat)
    (hm : Chess.candidateMatches s cand (Chess.nextMove s prev) = false)
    (hg : Chess.getVariation s cand prev = none)
    (hok : History.addMove o s cand prev s.disableNullMoves strict = .ok (id, t1))
    (hsecond : (Chess.nextMove t1 prev = some id ∧
                Chess.candidateMatches t1 cand (Chess.nextMove t1 prev) = true) ∨
               (Chess.candidateMatches t1 cand (Chess.nextMove t1 prev) = false ∧
                Chess.getVariation t1 cand prev = some id)) :
    (Chess.move o (Chess.move o s cand prev strict false false).2 cand prev
        strict false false).1
      = (Chess.move o s cand prev strict false false).1 ∧
    (Chess.move o (Chess.move o s cand prev strict false false).2 cand prev
        strict false false).2.arena
      = (Chess.move o s cand prev strict false false).2.arena := by
  rw [move_add_eq o s cand prev strict id t1 hm hg hok]
  rcases hsecond with ⟨hnm, hcm⟩ | ⟨hcm, hgv⟩
  · have hcm2 : Chess.candidateMatches
        (Chess.seek
          (publish t1 { type := .NewVariation, move := some id, previousMove := prev })
          (some id)) cand
        (Chess.nextMove
          (Chess.seek
            (publish t1 { type := .NewVariation, move := some id, previousMove := prev })
            (some id)) prev) = true := by
      rw [nextMove_sp, candidateMatches_sp]
      exact hcm
    rw [move_match_eq o _ cand prev strict hcm2]
    constructor
    · dsimp only []
      rw [nextMove_sp, hnm]
    · dsimp only []
      rw [arena_sp]
  · have hcm2 : Chess.candidateMatches
        (Chess.seek
          (publish t1 { type := .NewVariation, move := some id, previousMove := prev })
          (some id)) cand
        (Chess.nextMove
          (Chess.seek
            (publish t1 { type := .NewVariation, move := some id, previousMove := prev })
            (some id)) prev) = false := by
      rw [nextMove_sp, candidateMatches_sp]
      exact hcm
    have hgv2 : Chess.getVariation
        (Chess.seek
          (publish t1 { type := .NewVariation, move := some id, previousMove := prev })
          (some id)) cand prev = some id := by
      rw [getVariation_sp]
      exact hgv
    rw [move_getvar_eq o _ cand prev strict id hcm2 hgv2]
    constructor
    · rfl
    · dsimp only []
      rw [arena_sp]

/-! ## Preservation of the ply rule (for the amended C4) -/

theorem amod_id {α : Type} (k : Nat) : ∀ (l : List (Nat × α)), amod l k (fun x => x) = l
  | [] => rfl
  | (k', v) :: rest => by
    rw [amod]
    by_cases hk : k' = k
    · rw [if_pos hk]
    · rw [if_neg hk, amod_id k rest]

theorem amod_append_left {α : Type} (k : Nat) (f : α → α) :
    ∀ (l1 l2 : List (Nat × α)), (alook l1 k).isSome = true →
    amod (l1 ++ l2) k f = amod l1 k f ++ l2
  | [], l2, h => by rw [alook] at h; exact absurd h (by simp)
  | (k', v) :: rest, l2, h => by
    rw [List.cons_append, amod, amod]
    by_cases hk : k' = k
    · rw [if_pos hk, if_pos hk, List.cons_append]
    · rw [alook, if_neg hk] at h
      rw [if_neg hk, if_neg hk, List.cons_append, amod_append_left k f rest l2 h]

theorem mem_amod {α : Type} (k : Nat) (f : α → α) :
    ∀ (l : List (Nat × α)) (pr : Nat × α), pr ∈ amod l k f →
    ∃ w, (pr.1, w) ∈ l ∧ (pr.2 = w ∨ pr.2 = f w)
  | [], pr, h => by rw [amod] at h; exact absurd h (by simp)
  | (k', v) :: rest, pr, h => by
    rw [amod] at h
    by_cases hk : k' = k
    · rw [if_pos hk] at h
      rcases List.mem_cons.mp h with h | h
      · subst h
        exact ⟨v, by simp, Or.inr rfl⟩
      · exact ⟨pr.2, List.mem_cons_of_mem _ h, Or.inl rfl⟩
    · rw [if_neg hk] at h
      rcases List.mem_cons.mp h with h | h
      · subst h
        exact ⟨v, by simp, Or.inl rfl⟩
      · obtain ⟨w, hw, hor⟩ := mem_amod k f rest pr h
        exact ⟨w, List.mem_cons_of_mem _ hw, hor⟩

theorem TreeWF.nodesNodup {s : GameState} (h : TreeWF s = true) :
    (s.arena.nodes.map Prod.fst).Nodup := by
  rw [TreeWF] at h
  repeat rw [Bool.and_eq_true] at h
  exact of_decide_eq_true h.1.1.1.1.1.1.2

/-- `validateMove` stamps the ply of the move it returns as `previous.ply + 1`
when there is a previous move and as the setup ply (not setup ply + 1) for a
root move. -/
theorem validateMove_ply (o : Oracle) (s : GameState) (cand : Candidate)
    (prev : Option Nat) (dnm strict : Bool) (m : MNode)
    (h : History.validateMove o s cand prev dnm strict = some m) :
    (∀ p, prev = some p → m.ply = nodePly s p + 1) ∧
    (prev = none → m.ply = s.setUpPly) := by
  unfold History.validateMove at h
  cases prev with
  | some p =>
    refine ⟨?_, ?_⟩
    · intro p' hp'
      injection hp' with hp'
      subst hp'
      dsimp only [] at h
      cases hpn : s.node p with
      | none => rw [hpn] at h; exact absurd h (by simp)
      | some pn =>
        rw [hpn] at h
        dsimp only [] at h
        generalize (if isNullMove o cand pn.fen then
            getNullMove o pn.fen { disableNullMoves := dnm }
          else o.move pn.fen cand strict) = r at h
        cases r with
        | none => exact absurd h (by simp)
        | some cj =>
          dsimp only [] at h
          injection h with h
          rw [← h]
          show pn.ply + 1 = nodePly s p + 1
          unfold nodePly
          rw [hpn]
          rfl
    · intro hc
      exact absurd hc (by simp)
  | none =>
    refine ⟨?_, ?_⟩
    · intro p' hp'
      exact absurd hp' (by simp)
    · intro hc
      dsimp only [] at h
      generalize (if isNullMove o cand s.setUpFen then
          getNullMove o s.setUpFen { disableNullMoves := dnm }
        else o.move s.setUpFen cand strict) = r at h
      cases r with
      | none => exact absurd h (by simp)
      | some cj =>
        dsimp only [] at h
        injection h with h
        rw [← h]
        rfl

/-- Linking one validated move into a well-formed tree preserves the ply rule
over all nodes: the existing nodes only have `next`/`variations` rewritten,
and the new node's ply was stamped by `validateMove`. -/
theorem plyInvariant_add (s s1 : GameState) (modId : Nat) (modF : MNode → MNode) (nn : MNode)
    (hwf : TreeWF s = true)
    (hnodes : s1.arena.nodes
      = amod s.arena.nodes modId modF ++ [(s.arena.nextNode, nn)])
    (hsetup : s1.setUpPly = s.setUpPly)
    (hmod : ∀ n, (modF n).ply = n.ply ∧ (modF n).previous = n.previous)
    (hnn : nn.ply = (match nn.previous with
                     | some q => nodePly s q + 1
                     | none => s.setUpPly))
    (hnprev : ∀ q, nn.previous = some q → (s.node q).isSome = true) :
    plyInvariant s1 = true := by
  have hfresh : alook s.arena.nodes s.arena.nextNode = none := TreeWF.freshNode hwf
  have hply : ∀ x, x ≠ s.arena.nextNode → nodePly s1 x = nodePly s x := by
    intro x hx
    unfold nodePly GameState.node Arena.node
    rw [hnodes, alook_append, alook_amod]
    by_cases hxm : x = modId
    · subst hxm
      rw [if_pos rfl]
      cases hl : alook s.arena.nodes x with
      | some w => simp [(hmod w).1]
      | none => simp [alook, Ne.symm hx]
    · rw [if_neg hxm]
      cases hl : alook s.arena.nodes x with
      | some w => rfl
      | none => simp [alook, Ne.symm hx]
  rw [plyInvariant, List.all_eq_true]
  intro pr hpr
  rw [hnodes] at hpr
  rcases List.mem_append.mp hpr with hin | hin
  · obtain ⟨w, hw, hor⟩ := mem_amod modId modF s.arena.nodes pr hin
    have hlook : alook s.arena.nodes pr.1 = some w :=
      mem_alook _ (TreeWF.nodesNodup hwf) _ _ hw
    have hok := TreeWF.nodeOk hwf hlook
    rw [nodeOkB, Bool.and_eq_true, Bool.and_eq_true] at hok
    have hclause := hok.1.2
    have hplyeq : pr.2.ply = w.ply := by
      rcases hor with h | h
      · rw [h]
      · rw [h]
        exact (hmod w).1
    have hpreveq : pr.2.previous = w.previous := by
      rcases hor with h | h
      · rw [h]
      · rw [h]
        exact (hmod w).2
    rw [hplyeq, hpreveq]
    cases hwp : w.previous with
    | some qq =>
      rw [hwp, Bool.and_eq_true] at hclause
      obtain ⟨hs, hpl⟩ := hclause
      obtain ⟨qv, hqv⟩ := Option.isSome_iff_exists.mp hs
      dsimp only []
      rw [hply qq (Nat.ne_of_lt (TreeWF.nodesBound hwf hqv))]
      exact hpl
    | none =>
      rw [hwp] at hclause
      dsimp only []
      rw [hsetup]
      exact hclause
  · have hprn : pr = (s.arena.nextNode, nn) := by simpa using hin
    subst hprn
    dsimp only []
    cases hwp : nn.previous with
    | some qq =>
      have hs := hnprev qq hwp
      obtain ⟨qv, hqv⟩ := Option.isSome_iff_exists.mp hs
      rw [hwp] at hnn
      dsimp only [] at hnn
      dsimp only []
      rw [hply qq (Nat.ne_of_lt (TreeWF.nodesBound hwf hqv)), hnn]
      simp
    | none =>
      rw [hwp] at hnn
      dsimp only [] at hnn
      dsimp only []
      rw [hsetup, hnn]
      simp

/-! ## A failed traverse frame attaches nothing (for the amended C3) -/

theorem VarPres.refl (a : Arena) : VarPres a a :=
  fun _ n1 h => Or.inl ⟨n1, h, rfl⟩

theorem VarPres.trans {a b c : Arena} (h1 : VarPres a b) (h2 : VarPres b c) :
    VarPres a c := by
  intro x n1 h
  rcases h2 x n1 h with ⟨n0, hb, he⟩ | he
  · rcases h1 x n0 hb with ⟨nm, ha, he2⟩ | he2
    · exact Or.inl ⟨nm, ha, he2.trans he⟩
    · exact Or.inr (he ▸ he2)
  · exact Or.inr he

theorem VarPres.modNode {a b : Arena} (k : Nat) (f : MNode → MNode)
    (hf : ∀ n, (f n).variations = n.variations) (h : VarPres a b) :
    VarPres a (b.modNode k f) := by
  intro x n1 hx
  have hx2 : alook (amod b.nodes k f) x = some n1 := hx
  rw [alook_amod] at hx2
  by_cases hk : x = k
  · subst hk
    rw [if_pos rfl] at hx2
    cases hb : alook b.nodes x with
    | none => rw [hb] at hx2; exact absurd hx2 (by simp)
    | some w =>
      rw [hb] at hx2
      simp at hx2
      rcases h x w hb with ⟨n0, ha, he⟩ | he
      · exact Or.inl ⟨n0, ha, by rw [he, ← hx2, hf w]⟩
      · exact Or.inr (by rw [← hx2, hf w, he])
  · rw [if_neg hk] at hx2
    exact h x n1 hx2

theorem VarPres.modVar {a b : Arena} (k : Nat) (f : List Nat → List Nat)
    (h : VarPres a b) : VarPres a (b.modVar k f) := h

theorem VarPres.addNode {a b : Arena} (nn : MNode) (hnn : nn.variations = [])
    (h : VarPres a b) : VarPres a (b.addNode nn).2 := by
  intro x n1 hx
  have hx2 : alook (b.nodes ++ [(b.nextNode, nn)]) x = some n1 := hx
  rw [alook_append] at hx2
  cases hb : alook b.nodes x with
  | some w =>
    rw [hb] at hx2
    dsimp only [] at hx2
    injection hx2 with hx2
    subst hx2
    exact h x w hb
  | none =>
    rw [hb] at hx2
    dsimp only [] at hx2
    rw [alook] at hx2
    by_cases hk : b.nextNode = x
    · rw [if_pos hk] at hx2
      injection hx2 with hx2
      exact Or.inr (hx2 ▸ hnn)
    · rw [if_neg hk] at hx2
      exact absurd hx2 (by simp [alook])

/-- `processLine` itself never attaches a variation array to any node: every
node it touches keeps its `variations` list, and the nodes it creates carry
none. -/
theorem processLine_varPres (o : Oracle) (strict : Bool) :
    ∀ (line : PgnLine) (curFen : String) (prev : Option Nat) (ply varId : Nat) (a : Arena),
    VarPres a (processLine o strict line curFen prev ply varId a).1
  | .nil, _, _, _, _, a => VarPres.refl a
  | .cons (.mk nota meta vs) rest, curFen, prev, ply, varId, a => by
    rw [processLine]
    cases hcj : (if nota == nullMoveSan then getNullMove o curFen {}
        else o.move curFen (.san nota) strict) with
    | none => exact VarPres.refl a
    | some m =>
      dsimp only []
      cases prev with
      | none =>
        dsimp only []
        refine VarPres.trans ?_
          (processLine_varPres o strict rest m.after (some a.nextNode) (ply + 1) varId _)
        exact VarPres.modVar _ _ (VarPres.modNode _ _ (fun n => rfl)
          (VarPres.addNode _ rfl (VarPres.refl a)))
      | some p =>
        dsimp only []
        refine VarPres.trans ?_
          (processLine_varPres o strict rest m.after (some a.nextNode) (ply + 1) varId _)
        refine VarPres.modVar _ _ (VarPres.modNode _ _ (fun n => rfl) ?_)
        repeat' split
        all_goals
          first
          | exact VarPres.modNode _ _ (fun n => rfl)
              (VarPres.addNode _ rfl (VarPres.refl a))
          | exact VarPres.addNode _ rfl (VarPres.refl a)

/-! ## Claim theorems -/

/-- Claim C1 (code bug).  Against the stated invariant "every move is an
element of exactly one variation array and that array is the one referenced by
move.variation", `Chess.delete` violates it: starting from the history
`1. e4 e5` (node 0 = e4, node 1 = e5), adding `c5` after e4 (node 2) and `Nf3`
after c5 (node 3) builds the variation array 2 = [c5, Nf3]; deleting e5
promotes that variation into the mainline, but only updates the first
promoted move's `variation` field, so Nf3 ends up an element of the mainline
array while `Nf3.variation` still references array 2 (which also still lists
it) — two reachable arrays contain the move, and the one the mainline holds is
not the one `move.variation` references.  The spec (§4.3) requires the merged
array to become the shared `variation` of all members, as `promoteVariation`
indeed does; `delete` updates only the first member. -/
theorem c1_delete_breaks_variation_invariant :
    stDel3.varr stDel3.mainVar = [0, 2, 3] ∧
    nodeVarF stDel3 2 = some stDel3.mainVar ∧
    nodeVarF stDel3 3 = some 2 ∧
    (2 : Nat) ≠ stDel3.mainVar ∧
    stDel3.varr 2 = [2, 3] ∧
    nodeSan stDel3 3 = some "Nf3" := by decide

/-- Claim C2, counterexample.  In the tree `1. e4 (1. d4) e5` (node 2 = d4),
`promoteVariation(d4)` with the default `intoMainline = false` is a strict
no-op: `canPromoteVariation` rejects promoting the parent's first variation
when the variant parent (e4) is in the mainline, so the state is unchanged and
the mainline's first move is still e4, not d4. -/
theorem c2_promoteVariation_default_noop :
    Chess.promoteVariation stPromo (some 2) false = stPromo ∧
    Chess.canPromoteVariation stPromo (some 2) false = false ∧
    nodeSan stPromo 2 = some "d4" ∧
    Chess.nextMove stPromo none = some 0 ∧
    nodeSan stPromo 0 = some "e4" := by decide

/-- Claim C2, amended.  In the tree `1. e4 (1. d4) e5`, promotion of d4
requires `intoMainline = true` (with the default `intoMainline = false` the
call is a no-op, see the counterexample); `promoteVariation(d4, true)` then
makes d4 the first move of the mainline and leaves e4 (with its continuation
e5) as d4's sole variation. -/
theorem c2_promoteVariation_intoMainline :
    Chess.canPromoteVariation stPromo (some 2) true = true ∧
    (Chess.promoteVariation stPromo (some 2) true).mainVar = 2 ∧
    (Chess.promoteVariation stPromo (some 2) true).varr 2 = [2] ∧
    nodeSan (Chess.promoteVariation stPromo (some 2) true) 2 = some "d4" ∧
    varsOfNode (Chess.promoteVariation stPromo (some 2) true) 2 = [3] ∧
    (Chess.promoteVariation stPromo (some 2) true).varr 3 = [0, 1] ∧
    nodeSan (Chess.promoteVariation stPromo (some 2) true) 0 = some "e4" ∧
    nodeSan (Chess.promoteVariation stPromo (some 2) true) 1 = some "e5" ∧
    nodeVarF (Chess.promoteVariation stPromo (some 2) true) 0 = some 3 := by decide

/-- Claim C3, counterexample.  Loading `1. e4 (1. d4 Qh9) (1. Nf3) e5`, where
the second move of the d4 branch is illegal, abandons that branch *entirely*:
no array containing the d4 move is attached to e4 — the claim's "truncated to
the moves successfully built before the failure" (which would leave a `[d4]`
branch) does not hold.  The sibling branch and the mainline are built
normally. -/
theorem c3_branch_discarded_cex :
    varsOfNode stBranch 0 = [2] ∧
    (stBranch.varr 2).map (nodeSan stBranch) = [some "Nf3"] ∧
    (∀ v ∈ varsOfNode stBranch 0, ∀ id ∈ stBranch.varr v,
      nodeSan stBranch id ≠ some "d4") := by decide

/-- Claim C3, amended.  For every parsed game (any frame, any remaining work
stack, any arena, any fuel): when processing a variation branch hits an
illegal move (`processLine` reports failure), (1) the traverse loop simply
carries on with the remaining stack frames — the siblings — with the `moves`
binding untouched, (2) nothing the failed branch built is attached anywhere:
no node of the resulting arena holds a `variations` entry that it did not
already hold, and the branch's own nodes carry none (the branch, including
the prefix built before the failure, is discarded entirely and the load does
not fail); and (3) concretely, loading `1. e4 (1. d4 Qh9) (1. Nf3) e5` yields
mainline `e4 e5` with exactly the `Nf3` branch attached to e4. -/
theorem c3_branch_abandoned_siblings_survive (o : Oracle) (strict : Bool) (f : Frame)
    (rest : List Frame) (a : Arena) (res fuel : Nat)
    (hbad : (processLine o strict f.pgnMoves f.fen f.parent f.ply
               (a.addVar []).1 (a.addVar []).2).2.2 = false) :
    processStackF o strict (fuel + 1) (f :: rest) a res
      = processStackF o strict fuel
          ((processLine o strict f.pgnMoves f.fen f.parent f.ply
              (a.addVar []).1 (a.addVar []).2).2.1.reverse ++ rest)
          (processLine o strict f.pgnMoves f.fen f.parent f.ply
              (a.addVar []).1 (a.addVar []).2).1
          res ∧
    VarPres a (processLine o strict f.pgnMoves f.fen f.parent f.ply
        (a.addVar []).1 (a.addVar []).2).1 ∧
    ((stBranch.varr stBranch.mainVar).map (nodeSan stBranch) = [some "e4", some "e5"] ∧
      (varsOfNode stBranch 0).map (fun v => (stBranch.varr v).map (nodeSan stBranch))
        = [[some "Nf3"]] ∧
      nodeNextF stBranch 0 = some 1) := by
  refine ⟨?_, ?_, by decide⟩
  · simp only [processStackF]
    rw [hbad]
    simp
  · exact VarPres.trans (VarPres.refl a)
      (processLine_varPres o strict f.pgnMoves f.fen f.parent f.ply
        (a.addVar []).1 (a.addVar []).2)

/-- Witness for the amended C3: the `1. d4 Qh9` branch frame of the
`1. e4 (1. d4 Qh9) (1. Nf3) e5` load fails (Qh9 is illegal after d4), the
loop goes on to the sibling `1. Nf3` frame, and nothing was attached. -/
theorem c3_branch_abandoned_siblings_survive_witness :
    (processLine oracleB false (PgnLine.ofList [pm "d4", pm "Qh9"]) FENstart none 1
        ((({} : Arena).addVar []).1) ((({} : Arena).addVar []).2)).2.2 = false ∧
    (processStackF oracleB false 4
        [⟨PgnLine.ofList [pm "d4", pm "Qh9"], FENstart, none, some 0, 1⟩,
         ⟨PgnLine.ofList [pm "Nf3"], FENstart, none, some 0, 1⟩] {} 0
      = processStackF oracleB false 3
          ((processLine oracleB false (PgnLine.ofList [pm "d4", pm "Qh9"]) FENstart none 1
              ((({} : Arena).addVar []).1) ((({} : Arena).addVar []).2)).2.1.reverse
            ++ [⟨PgnLine.ofList [pm "Nf3"], FENstart, none, some 0, 1⟩])
          (processLine oracleB false (PgnLine.ofList [pm "d4", pm "Qh9"]) FENstart none 1
              ((({} : Arena).addVar []).1) ((({} : Arena).addVar []).2)).1
          0 ∧
      VarPres {} (processLine oracleB false (PgnLine.ofList [pm "d4", pm "Qh9"]) FENstart
          none 1 ((({} : Arena).addVar []).1) ((({} : Arena).addVar []).2)).1 ∧
      ((stBranch.varr stBranch.mainVar).map (nodeSan stBranch) = [some "e4", some "e5"] ∧
        (varsOfNode stBranch 0).map (fun v => (stBranch.varr v).map (nodeSan stBranch))
          = [[some "Nf3"]] ∧
        nodeNextF stBranch 0 = some 1)) :=
  ⟨by decide,
   c3_branch_abandoned_siblings_survive oracleB false
     ⟨PgnLine.ofList [pm "d4", pm "Qh9"], FENstart, none, some 0, 1⟩
     [⟨PgnLine.ofList [pm "Nf3"], FENstart, none, some 0, 1⟩] {} 0 3 (by decide)⟩

/-- Claim C10 (confirmed).  For every header tag state (and any history,
game comment and render options), the rendered PGN ends with exactly the one
result token `Pgn.renderResult` produces, and that token is one of
`1-0`, `0-1`, `1/2-1/2`, `*`; when the Result tag is absent or holds any
other string, the token is `*` rather than the tag's raw value. -/
theorem c10_render_result_token (s : GameState) (tags : List (String × String))
    (gc : DComment) (opts : RenderOptions) :
    (Pgn.renderResult tags = "1-0" ∨ Pgn.renderResult tags = "0-1" ∨
      Pgn.renderResult tags = "1/2-1/2" ∨ Pgn.renderResult tags = "*") ∧
    ((∀ pr : String × String, tags.find? (fun p => p.1 == "Result") = some pr →
        pr.2 ≠ "1-0" ∧ pr.2 ≠ "0-1" ∧ pr.2 ≠ "1/2-1/2") →
      Pgn.renderResult tags = "*") ∧
    ∃ p : String, Pgn.render s tags gc opts = p ++ Pgn.renderResult tags := by
  refine ⟨renderResult_cases tags, ?_, render_ends_with_result s tags gc opts⟩
  intro hother
  unfold Pgn.renderResult
  cases hf : tags.find? (fun p => p.1 == "Result") with
  | none => rfl
  | some pr =>
    obtain ⟨h1, h2, h3⟩ := hother pr hf
    simp [h1, h2, h3]

/-- Witness for C10: with the Result tag holding the non-standard string
`unfinished`, the rendered PGN of the `1. e4 e5 2. Nf3` game ends with `*`. -/
theorem c10_render_result_token_witness :
    Pgn.renderResult [("Result", "unfinished")] = "*" ∧
    ∃ p : String, Pgn.render stMain3 [("Result", "unfinished")] {} {} = p ++ "*" := by
  have h := c10_render_result_token stMain3 [("Result", "unfinished")] {} {}
  have hstar := h.2.1 (by
    intro pr hpr
    simp only [List.find?] at hpr
    simp at hpr
    rw [← hpr]
    decide)
  exact ⟨hstar, hstar ▸ h.2.2⟩

/-- Claim C4, counterexample.  In the history `1. e4 e5 2. Nf3` from the
standard start FEN, the claim's formula
`move.ply == (move.previous?.ply ?? setupPly) + 1` fails: the History's
`setUpPly` is 1 and the first move (previous = null) has ply 1 = `setUpPly`,
not `setUpPly + 1 = 2`. -/
theorem c4_ply_formula_cex :
    claimPlyFormula stMain3 = false ∧
    stMain3.setUpPly = 1 ∧
    nodePrev stMain3 0 = none ∧
    nodePly stMain3 0 = 1 := by decide

/-- Claim C9 (confirmed).  A null-move request `Z0` from the setup position is
rejected (both `getNullMove` and `validateMove` return null) when the side to
move is in check or the game is over; from any other position (with both kings
on the board, as in every real position) it is accepted, and the resulting
move's FEN is the prior FEN with exactly the side-to-move field flipped and
the en passant field cleared to `-`, the other four fields unchanged. -/
theorem c9_null_move (o : Oracle) (s : GameState) (fen : String)
    (hfen : s.setUpFen = fen) :
    (o.isCheck fen = true ∨ o.isGameOver fen = true →
      getNullMove o fen {} = none ∧
      History.validateMove o s (.san "Z0") none false false = none) ∧
    (∀ f0 f1 f2 f3 f4 f5 ks1 ks2 : String,
      fen = jsJoin " " [f0, f1, f2, f3, f4, f5] →
      (∀ f ∈ [f0, f1, f2, f3, f4, f5], fenField f) →
      o.isCheck fen = false → o.isGameOver fen = false →
      o.kingSquare fen (fenTurn fen) = some ks1 →
      o.kingSquare fen (if fenTurn fen == "w" then "b" else "w") = some ks2 →
      ∃ m : MNode, History.validateMove o s (.san "Z0") none false false = some m ∧
        m.fen = jsJoin " " [f0, if f1 = "w" then "b" else "w", f2, "-", f4, f5] ∧
        m.isNullMove = true) := by
  constructor
  · intro h
    have hrej := getNullMove_rejected o fen false h
    refine ⟨hrej, ?_⟩
    unfold History.validateMove
    rw [hfen]
    have hnul : isNullMove o (.san "Z0") fen = true := by simp [isNullMove, nullMoveSan]
    rw [hnul]
    simp only [if_true]
    rw [hrej]
  · intro f0 f1 f2 f3 f4 f5 ks1 ks2 hfield hgood hc hg hk1 hk2
    have hsw : switchTurn fen = some (jsJoin " " [f0, if f1 = "w" then "b" else "w", f2, "-", f4, f5]) := by
      rw [hfield]; exact switchTurn_fields f0 f1 f2 f3 f4 f5 hgood
    have hok := getNullMove_ok o fen _ ks1 ks2 hc hg hsw hk1 hk2
    refine ⟨getMove s.setUpPly emptyPMeta
      { color := fenTurn fen, fromSq := ks1, toSq := ks2, piece := "k",
        captured := none, promotion := none, san := "Z0", lan := "Z0",
        before := fen, after := jsJoin " " [f0, if f1 = "w" then "b" else "w", f2, "-", f4, f5] },
      ?_, rfl, rfl⟩
    unfold History.validateMove
    rw [hfen]
    have hnul : isNullMove o (.san "Z0") fen = true := by simp [isNullMove, nullMoveSan]
    rw [hnul]
    simp only [if_true]
    rw [hok]

/-- Claim C8 (confirmed).  For every candidate and previous move,
`Chess.validateMove` does not mutate the tree: the whole facade/history
state — the arena (every move's fields and every variation array), the
mainline id, the current-move pointer — and the published event stream are
unchanged, and on success the returned move is detached (no previous, no
next, no owning array, no variations).  The call is total in the model: the
source's internal `try` turns an illegal or malformed candidate into a null
return rather than an exception. -/
theorem c8_validateMove_frame (o : Oracle) (s : GameState) (cand : Candidate)
    (previousMove : Option Nat) (dnm strict : Bool) :
    (Chess.validateMove o s cand previousMove dnm strict).2 = s ∧
    (Chess.validateMove o s cand previousMove dnm strict).2.events = s.events ∧
    (Chess.validateMove o s cand previousMove dnm strict).2.currentMove = s.currentMove ∧
    ∀ m, (Chess.validateMove o s cand previousMove dnm strict).1 = some m →
      m.previous = none ∧ m.next = none ∧ m.variation = none ∧ m.variations = [] := by
  exact ⟨rfl, rfl, rfl, validateMove_detached o s cand previousMove dnm strict⟩

/-- Witness for C8: validating `c5` after e4 in the `1. e4 e5 2. Nf3` game
leaves the state untouched and returns a detached move. -/
theorem c8_validateMove_frame_witness :
    (Chess.validateMove oracleA stMain3 (.san "c5") (some 0) false false).2 = stMain3 ∧
    (Chess.validateMove oracleA stMain3 (.san "c5") (some 0) false false).1
      = some (getMove 2 emptyPMeta cjC5) ∧
    (getMove 2 emptyPMeta cjC5).previous = none ∧
    (getMove 2 emptyPMeta cjC5).next = none ∧
    (getMove 2 emptyPMeta cjC5).variation = none ∧
    (getMove 2 emptyPMeta cjC5).variations = [] := by
  have h := c8_validateMove_frame oracleA stMain3 (.san "c5") (some 0) false false
  have hd := h.2.2.2 (getMove 2 emptyPMeta cjC5) (by decide)
  exact ⟨h.1, by decide, hd.1, hd.2.1, hd.2.2.1, hd.2.2.2⟩

/-- Claim C6 (confirmed).  For an illegal candidate (one the oracle rejects,
i.e. `validateMove` returns null), `History.addMove` throws, while the facade
`Chess.move` does not: it returns null and publishes exactly an IllegalMove
event; for a legal candidate `Chess.move` returns a non-null move.  The
hypotheses are the §3 structural invariants (`TreeWF`) and that every tree
move matching the candidate re-validates against the oracle from its own
previous position — which holds of any tree whose moves were produced by the
oracle, and ties "illegal" to "matches no existing continuation". -/
theorem c6_illegal_move (o : Oracle) (s : GameState) (cand : Candidate)
    (previousMove : Option Nat) (strict : Bool)
    (hwf : TreeWF s = true)
    (hreval : ∀ p ∈ s.arena.nodes,
      (cand = .san p.2.core.san ∨ cand = .obj p.2.core.fromSq p.2.core.toSq p.2.core.promotion) →
      History.validateMove o s cand p.2.previous s.disableNullMoves strict ≠ none) :
    (History.validateMove o s cand previousMove s.disableNullMoves strict = none →
      History.addMove o s cand previousMove s.disableNullMoves strict = .error "Invalid move" ∧
      (Chess.move o s cand previousMove strict false false).1 = none ∧
      (Chess.move o s cand previousMove strict false false).2
        = publish s { type := .IllegalMove, cand := some cand, previousMove := previousMove }) ∧
    (History.validateMove o s cand previousMove s.disableNullMoves strict ≠ none →
      (Chess.move o s cand previousMove strict false false).1 ≠ none) := by
  constructor
  · intro hv
    have hm : Chess.candidateMatches s cand (Chess.nextMove s previousMove) = false := by
      cases hnm : Chess.nextMove s previousMove with
      | none => rfl
      | some id =>
        by_contra hcm
        rw [Bool.not_eq_false] at hcm
        obtain ⟨n, hn, hshape⟩ := candidateMatches_node hcm
        have hprev : nodePrev s id = previousMove := TreeWF.nextMove_prev hwf hnm
        have hnp : n.previous = previousMove := by
          unfold nodePrev at hprev
          rw [hn] at hprev
          simpa using hprev
        exact hreval (id, n) (alook_mem _ _ _ hn) hshape (by rw [hnp]; exact hv)
    have hg : Chess.getVariation s cand previousMove = none := by
      cases hgv : Chess.getVariation s cand previousMove with
      | none => rfl
      | some ev =>
        exfalso
        unfold Chess.getVariation at hgv
        cases hnm : Chess.nextMove s previousMove with
        | none => rw [hnm] at hgv; simp at hgv
        | some nm =>
          rw [hnm] at hgv
          dsimp only [] at hgv
          cases hn : s.node nm with
          | none => rw [hn] at hgv; simp at hgv
          | some n =>
            rw [hn] at hgv
            dsimp only [] at hgv
            obtain ⟨v, hvmem, hhead, hcm⟩ := getVariationScan_some s cand n.variations ev hgv
            obtain ⟨evn, hevn, hshape⟩ := candidateMatches_node hcm
            have hok := TreeWF.nodeOk hwf hn
            rw [nodeOkB, Bool.and_eq_true, Bool.and_eq_true] at hok
            have hvars := List.all_eq_true.mp hok.2 v hvmem
            rw [Bool.and_eq_true] at hvars
            have hroot := hvars.2
            rw [hhead] at hroot
            have hrootprev : nodePrev s ev = n.previous := eq_of_beq hroot
            have hnm_prev : nodePrev s nm = previousMove := TreeWF.nextMove_prev hwf hnm
            have hnp : n.previous = previousMove := by
              unfold nodePrev at hnm_prev
              rw [hn] at hnm_prev
              simpa using hnm_prev
            have hevprev : evn.previous = previousMove := by
              unfold nodePrev at hrootprev
              rw [hevn] at hrootprev
              simp only [Option.some_bind] at hrootprev
              rw [hrootprev, hnp]
            exact hreval (ev, evn) (alook_mem _ _ _ hevn) hshape (by rw [hevprev]; exact hv)
    have herr := addMove_error o s cand previousMove s.disableNullMoves strict hv
    refine ⟨herr, ?_, ?_⟩
    · unfold Chess.move
      dsimp only []
      rw [hm, hg, herr]
      simp
    · unfold Chess.move
      dsimp only []
      rw [hm, hg, herr]
      simp
  · intro hv
    unfold Chess.move
    by_cases hm : Chess.candidateMatches s cand (Chess.nextMove s previousMove) = true
    · simp only [hm, if_true]
      cases hnm : Chess.nextMove s previousMove with
      | none => rw [hnm] at hm; simp [Chess.candidateMatches] at hm
      | some id => simp
    · rw [Bool.not_eq_true] at hm
      simp only [hm, Bool.false_eq_true, if_false]
      cases hgv : Chess.getVariation s cand previousMove with
      | some ev => simp
      | none =>
        simp only []
        obtain ⟨id, s', hok⟩ := addMove_ok o s cand previousMove s.disableNullMoves strict hv
        rw [hok]
        simp

/-- Witness for C6: in the `1. e4 e5 2. Nf3` game, the SAN `Qh9` (not a legal
move anywhere, and matching no tree move) after e4 makes `addMove` raise while
`Chess.move` returns null and publishes an IllegalMove event; the legal `c5`
after e4 yields a non-null move. -/
theorem c6_illegal_move_witness :
    History.addMove oracleA stMain3 (.san "Qh9") (some 0) stMain3.disableNullMoves false
      = .error "Invalid move" ∧
    (Chess.move oracleA stMain3 (.san "Qh9") (some 0) false false false).1 = none ∧
    (Chess.move oracleA stMain3 (.san "Qh9") (some 0) false false false).2
      = publish stMain3 { type := .IllegalMove, cand := some (.san "Qh9"), previousMove := some 0 } ∧
    (Chess.move oracleA stMain3 (.san "c5") (some 0) false false false).1 ≠ none := by
  have h1 := (c6_illegal_move oracleA stMain3 (.san "Qh9") (some 0) false (by decide)
    (by decide)).1 (by decide)
  have h2 := (c6_illegal_move oracleA stMain3 (.san "c5") (some 0) false (by decide)
    (by decide)).2 (by decide)
  exact ⟨h1.1, h1.2.1, h1.2.2, h2⟩

/-- Witness for C9: the in-check position rejects `Z0`; the start position
accepts it and yields the start FEN with `b` to move and en passant `-`. -/
theorem c9_null_move_witness :
    History.validateMove oracleC9
      (mkHistory oracleC9 false .nil "4r2k/8/8/8/8/8/8/4K3 w - - 0 1")
      (.san "Z0") none false false = none ∧
    ∃ m : MNode, History.validateMove oracleC9 (mkHistory oracleC9 false .nil FENstart)
        (.san "Z0") none false false = some m ∧
      m.fen = "rnbqkbnr/pppppppp/8/8/8/8/PPPPPPPP/RNBQKBNR b KQkq - 0 1" ∧
      m.isNullMove = true := by
  constructor
  · exact ((c9_null_move oracleC9
      (mkHistory oracleC9 false .nil "4r2k/8/8/8/8/8/8/4K3 w - - 0 1")
      "4r2k/8/8/8/8/8/8/4K3 w - - 0 1" rfl).1 (Or.inl (by decide))).2
  · obtain ⟨m, hm, hfen, hnull⟩ := (c9_null_move oracleC9
      (mkHistory oracleC9 false .nil FENstart) FENstart rfl).2
      "rnbqkbnr/pppppppp/8/8/8/8/PPPPPPPP/RNBQKBNR" "w" "KQkq" "-" "0" "1" "e1" "e8"
      (by decide) (by decide) (by decide) (by decide) (by decide) (by decide)
    exact ⟨m, hm, by rw [hfen]; decide, hnull⟩

/-- Claim C7 (confirmed).  For every candidate and previous move over a
well-formed tree, when the oracle echoes the candidate's identifying fields
(SAN for string candidates, from/to/promotion for structured ones) into the
move it returns, calling `Chess.move` a second time with the same candidate
and previous returns the same move id and leaves the arena (every node and
every variation array) unchanged: the second call finds the move created by
the first via `candidateMatches`/`getVariation` instead of inserting a
duplicate branch. -/
theorem c7_move_idempotent (o : Oracle) (s : GameState) (cand : Candidate)
    (prev : Option Nat) (strict : Bool)
    (hwf : TreeWF s = true)
    (hecho : (match History.validateMove o s cand prev s.disableNullMoves strict with
              | none => true
              | some m => candMatchesCore cand m.core) = true) :
    (Chess.move o (Chess.move o s cand prev strict false false).2 cand prev
        strict false false).1
      = (Chess.move o s cand prev strict false false).1 ∧
    (Chess.move o (Chess.move o s cand prev strict false false).2 cand prev
        strict false false).2.arena
      = (Chess.move o s cand prev strict false false).2.arena := by
  by_cases hm : Chess.candidateMatches s cand (Chess.nextMove s prev) = true
  · rw [move_match_eq o s cand prev strict hm]
    have hm2 : Chess.candidateMatches
        (Chess.seek
          (publish s
            { type := .LegalMove, move := Chess.nextMove s prev, previousMove := prev })
          (Chess.nextMove s prev)) cand
        (Chess.nextMove
          (Chess.seek
            (publish s
              { type := .LegalMove, move := Chess.nextMove s prev, previousMove := prev })
            (Chess.nextMove s prev)) prev) = true := by
      rw [nextMove_sp, candidateMatches_sp]
      exact hm
    rw [move_match_eq o _ cand prev strict hm2]
    constructor
    · dsimp only []
      rw [nextMove_sp]
    · dsimp only []
      rw [arena_sp]
  · rw [Bool.not_eq_true] at hm
    cases hg : Chess.getVariation s cand prev with
    | some ev =>
      rw [move_getvar_eq o s cand prev strict ev hm hg]
      have hm2 : Chess.candidateMatches
          (Chess.seek
            (publish s { type := .LegalMove, move := some ev, previousMove := prev })
            (some ev)) cand
          (Chess.nextMove
            (Chess.seek
              (publish s { type := .LegalMove, move := some ev, previousMove := prev })
              (some ev)) prev) = false := by
        rw [nextMove_sp, candidateMatches_sp]
        exact hm
      have hg2 : Chess.getVariation
          (Chess.seek
            (publish s { type := .LegalMove, move := some ev, previousMove := prev })
            (some ev)) cand prev = some ev := by
        rw [getVariation_sp]
        exact hg
      rw [move_getvar_eq o _ cand prev strict ev hm2 hg2]
      constructor
      · rfl
      · dsimp only []
        rw [arena_sp]
    | none =>
      cases hv : History.validateMove o s cand prev s.disableNullMoves strict with
      | none =>
        have herr := addMove_error o s cand prev s.disableNullMoves strict hv
        rw [move_err_eq o s cand prev strict _ hm hg herr]
        have hm2 : Chess.candidateMatches
            (publish s { type := .IllegalMove, cand := some cand, previousMove := prev })
            cand
            (Chess.nextMove
              (publish s { type := .IllegalMove, cand := some cand, previousMove := prev })
              prev) = false := by
          rw [nextMove_pub, candidateMatches_pub]
          exact hm
        have hg2 : Chess.getVariation
            (publish s { type := .IllegalMove, cand := some cand, previousMove := prev })
            cand prev = none := by
          rw [getVariation_pub]
          exact hg
        have hv2 : History.validateMove o
            (publish s { type := .IllegalMove, cand := some cand, previousMove := prev })
            cand prev
            (publish s
              { type := .IllegalMove, cand := some cand, previousMove := prev
                }).disableNullMoves strict = none := hv
        have herr2 := addMove_error o
          (publish s { type := .IllegalMove, cand := some cand, previousMove := prev })
          cand prev
          (publish s
            { type := .IllegalMove, cand := some cand, previousMove := prev
              }).disableNullMoves strict hv2
        rw [move_err_eq o _ cand prev strict _ hm2 hg2 herr2]
        exact ⟨rfl, rfl⟩
      | some m0 =>
        have hechoM : candMatchesCore cand m0.core = true := by
          rw [hv] at hecho
          exact hecho
        cases prev with
        | some p =>
          have hvne : History.validateMove o s cand (some p) s.disableNullMoves strict
              ≠ none := by
            rw [hv]
            exact Option.noConfusion
          obtain ⟨pn, hpn⟩ := validateMove_prev_node o s cand p s.disableNullMoves strict hvne
          cases hnx : pn.next with
          | none =>
            obtain ⟨v, hvv, hcont⟩ := nodeOk_variation (TreeWF.nodeOk hwf hpn)
            have hshape := addMove_shape_leaf o s cand p v s.disableNullMoves strict m0 pn
              hv hpn hnx hvv
            have hsec := second_tip s cand p v { m0 with previous := some p } pn hwf hpn hechoM
            exact move_idem_ok o s _ cand (some p) strict s.arena.nextNode hm hg hshape
              (Or.inl ⟨hsec.1, by rw [hsec.1]; exact hsec.2⟩)
          | some q =>
            obtain ⟨v0, hvv0, hcont⟩ := nodeOk_variation (TreeWF.nodeOk hwf hpn)
            have hreg0 : alook s.arena.vars v0 = some (s.varr v0) := varr_contains_reg hcont
            have hvok0 := TreeWF.varOk hwf hreg0
            have hpmem : p ∈ s.varr v0 := by
              simpa using hcont
            have hnextF : nodeNextF s p = some q := by
              unfold nodeNextF
              rw [hpn]
              simp only [Option.some_bind]
              exact hnx
            have hqmem : q ∈ s.varr v0 :=
              arrayLinks_next_mem s (s.varr v0) (varOk_links hvok0) p hpmem q hnextF
            obtain ⟨qn, hqn, _⟩ := varOk_member hvok0 hqmem
            have hnm1 : Chess.nextMove s (some p) = some q := hnextF
            have hcmq : Chess.candidateMatches s cand (some q) = false := by
              rw [← hnm1]
              exact hm
            have hscan : Chess.getVariationScan s cand qn.variations = none := by
              unfold Chess.getVariation at hg
              rw [hnm1] at hg
              dsimp only [] at hg
              rw [hqn] at hg
              exact hg
            have hshape := addMove_shape_next o s cand p q s.disableNullMoves strict m0 pn
              hv hpn hnx
            have hsec := second_branch_core s cand q { m0 with previous := some p } qn
              hwf hqn hscan hcmq hechoM
            have hqb : q < s.arena.nextNode := TreeWF.nodesBound hwf hqn
            have hfreshN := TreeWF.freshNode hwf
            have hnm2 : Chess.nextMove
                { s with arena := addBranchArena s q { m0 with previous := some p } }
                (some p) = some q := by
              show nodeNextF
                { s with arena := addBranchArena s q { m0 with previous := some p } } p
                = some q
              unfold nodeNextF
              rw [branch_node_eq s q p { m0 with previous := some p } hqb hfreshN
                (Nat.ne_of_lt (TreeWF.nodesBound hwf hpn))]
              by_cases hpq : p = q
              · subst hpq
                rw [if_pos rfl, hpn]
                simp only [Option.map_some', Option.some_bind]
                exact hnx
              · rw [if_neg hpq, hpn]
                simp only [Option.some_bind]
                exact hnx
            refine move_idem_ok o s _ cand (some p) strict s.arena.nextNode hm hg hshape
              (Or.inr ⟨?_, ?_⟩)
            · rw [hnm2]
              exact hsec.1
            · exact hsec.2 (some p) hnm2
        | none =>
          by_cases hlen : (s.varr s.mainVar).length > 0
          · obtain ⟨lm, hlm⟩ := TreeWF.mainReg hwf
            have hvarrm : s.varr s.mainVar = lm := by
              unfold GameState.varr Arena.varr
              rw [hlm]
              rfl
            cases hhead : (s.varr s.mainVar).head? with
            | none =>
              exfalso
              cases hl2 : s.varr s.mainVar with
              | nil => rw [hl2] at hlen; simp at hlen
              | cons a r => rw [hl2] at hhead; simp at hhead
            | some first =>
              have hfmem : first ∈ lm := by
                rw [hvarrm] at hhead
                exact head_mem hhead
              obtain ⟨fn, hfn, _⟩ := varOk_member (TreeWF.varOk hwf hlm) hfmem
              have hnm1 : Chess.nextMove s none = some first := hhead
              have hcmf : Chess.candidateMatches s cand (some first) = false := by
                rw [← hnm1]
                exact hm
              have hscan : Chess.getVariationScan s cand fn.variations = none := by
                unfold Chess.getVariation at hg
                rw [hnm1] at hg
                dsimp only [] at hg
                rw [hfn] at hg
                exact hg
              have hshape := addMove_shape_root_var o s cand s.disableNullMoves strict m0
                first hv hlen hhead
              have hsec := second_branch_core s cand first { m0 with previous := none } fn
                hwf hfn hscan hcmf hechoM
              have hfreshV := TreeWF.freshVar hwf
              have hnm2 : Chess.nextMove
                  { s with arena := addBranchArena s first { m0 with previous := none } }
                  none = some first := by
                show (({ s with
                    arena := addBranchArena s first { m0 with previous := none } }
                    : GameState).varr s.mainVar).head? = some first
                rw [branch_varr_eq s first s.mainVar { m0 with previous := none } hfreshV
                  (Nat.ne_of_lt (TreeWF.varsBound hwf hlm))]
                exact hhead
              refine move_idem_ok o s _ cand none strict s.arena.nextNode hm hg hshape
                (Or.inr ⟨?_, ?_⟩)
              · rw [hnm2]
                exact hsec.1
              · exact hsec.2 none hnm2
          · have hnil : s.varr s.mainVar = [] := by
              cases hl2 : s.varr s.mainVar with
              | nil => rfl
              | cons a r =>
                exfalso
                rw [hl2] at hlen
                simp at hlen
            have hshape := addMove_shape_root_empty o s cand s.disableNullMoves strict m0
              hv hlen
            have hsec := second_root_empty s cand { m0 with previous := none } hwf hnil
              hechoM
            exact move_idem_ok o s _ cand none strict s.arena.nextNode hm hg hshape
              (Or.inl ⟨hsec.1, by rw [hsec.1]; exact hsec.2⟩)

/-- Witness for C7: in the `1. e4 e5 2. Nf3` game, playing `c5` after `e4`
twice gives the same move id both times, and the second call leaves the arena
untouched. -/
theorem c7_move_idempotent_witness :
    (Chess.move oracleA (Chess.move oracleA stMain3 (.san "c5") (some 0) false false false).2
        (.san "c5") (some 0) false false false).1
      = (Chess.move oracleA stMain3 (.san "c5") (some 0) false false false).1 ∧
    (Chess.move oracleA (Chess.move oracleA stMain3 (.san "c5") (some 0) false false false).2
        (.san "c5") (some 0) false false false).2.arena
      = (Chess.move oracleA stMain3 (.san "c5") (some 0) false false false).2.arena :=
  c7_move_idempotent oracleA stMain3 (.san "c5") (some 0) false (by decide) (by decide)

/-- Claim C4, amended.  The ply rule the source implements is
`move.ply == previous.ply + 1` for a non-root move and `move.ply == setUpPly`
(the setup ply itself, not setup ply + 1) for a root move: `validateMove`
stamps exactly these plies on the move it returns, and linking the move into
a well-formed tree with `addMove` yields a tree in which every node satisfies
the rule. -/
theorem c4_ply_rule (o : Oracle) (s : GameState) (cand : Candidate)
    (prev : Option Nat) (dnm strict : Bool) (hwf : TreeWF s = true) :
    (∀ m, History.validateMove o s cand prev dnm strict = some m →
      (∀ p, prev = some p → m.ply = nodePly s p + 1) ∧
      (prev = none → m.ply = s.setUpPly)) ∧
    (∀ id s1, History.addMove o s cand prev dnm strict = .ok (id, s1) →
      plyInvariant s1 = true) := by
  constructor
  · intro m h
    exact validateMove_ply o s cand prev dnm strict m h
  · intro id s1 hok
    cases hv : History.validateMove o s cand prev dnm strict with
    | none =>
      rw [addMove_error o s cand prev dnm strict hv] at hok
      exact Except.noConfusion hok
    | some m0 =>
      have hvne : History.validateMove o s cand prev dnm strict ≠ none := by
        rw [hv]
        exact Option.noConfusion
      have hplym := validateMove_ply o s cand prev dnm strict m0 hv
      cases prev with
      | some p =>
        obtain ⟨pn, hpn⟩ := validateMove_prev_node o s cand p dnm strict hvne
        cases hnx : pn.next with
        | some q =>
          rw [addMove_shape_next o s cand p q dnm strict m0 pn hv hpn hnx] at hok
          injection hok with hok
          injection hok with h1 h2
          subst h2
          refine plyInvariant_add s _ q
            (fun n => { n with variations := n.variations ++ [s.arena.nextVar] })
            { m0 with previous := some p, variation := some s.arena.nextVar }
            hwf rfl rfl (fun n => ⟨rfl, rfl⟩) ?_ ?_
          · exact hplym.1 p rfl
          · intro qq hqq
            have hqq2 : some p = some qq := hqq
            injection hqq2 with hqq2
            subst hqq2
            rw [hpn]
            rfl
        | none =>
          obtain ⟨v, hvv, hcont⟩ := nodeOk_variation (TreeWF.nodeOk hwf hpn)
          rw [addMove_shape_leaf o s cand p v dnm strict m0 pn hv hpn hnx hvv] at hok
          injection hok with hok
          injection hok with h1 h2
          subst h2
          have hpn' : alook s.arena.nodes p = some pn := hpn
          refine plyInvariant_add s _ p
            (fun n => { n with next := some s.arena.nextNode })
            { m0 with previous := some p, variation := some v }
            hwf ?_ rfl (fun n => ⟨rfl, rfl⟩) ?_ ?_
          · show (addTipArena s p v { m0 with previous := some p }).nodes = _
            dsimp only [addTipArena]
            rw [amod_append_left p (fun n => { n with next := some s.arena.nextNode })
              s.arena.nodes
              [(s.arena.nextNode,
                { m0 with previous := some p, variation := some v })]
              (by rw [hpn']; rfl)]
          · exact hplym.1 p rfl
          · intro qq hqq
            have hqq2 : some p = some qq := hqq
            injection hqq2 with hqq2
            subst hqq2
            rw [hpn]
            rfl
      | none =>
        by_cases hlen : (s.varr s.mainVar).length > 0
        · cases hhead : (s.varr s.mainVar).head? with
          | none =>
            exfalso
            cases hl2 : s.varr s.mainVar with
            | nil => rw [hl2] at hlen; simp at hlen
            | cons a r => rw [hl2] at hhead; simp at hhead
          | some first =>
            rw [addMove_shape_root_var o s cand dnm strict m0 first hv hlen hhead] at hok
            injection hok with hok
            injection hok with h1 h2
            subst h2
            refine plyInvariant_add s _ first
              (fun n => { n with variations := n.variations ++ [s.arena.nextVar] })
              { m0 with previous := none, variation := some s.arena.nextVar }
              hwf rfl rfl (fun n => ⟨rfl, rfl⟩) ?_ ?_
            · exact hplym.2 rfl
            · intro qq hqq
              exact absurd (show (none : Option Nat) = some qq from hqq) (by simp)
        · rw [addMove_shape_root_empty o s cand dnm strict m0 hv hlen] at hok
          injection hok with hok
          injection hok with h1 h2
          subst h2
          refine plyInvariant_add s _ s.arena.nextNode (fun x => x)
            { m0 with previous := none, variation := some s.mainVar }
            hwf ?_ rfl (fun n => ⟨rfl, rfl⟩) ?_ ?_
          · show (addRootArena s { m0 with previous := none }).nodes = _
            dsimp only [addRootArena]
            rw [amod_id]
          · exact hplym.2 rfl
          · intro qq hqq
            exact absurd (show (none : Option Nat) = some qq from hqq) (by simp)

/-- Witness for the amended C4: adding `c5` after `e4` in the
`1. e4 e5 2. Nf3` game validates to a move of ply 2 (= e4's ply 1 plus one)
and the resulting tree satisfies the ply rule everywhere. -/
theorem c4_ply_rule_witness :
    TreeWF stMain3 = true ∧
    (∀ m, History.validateMove oracleA stMain3 (.san "c5") (some 0) false false = some m →
      (∀ p, (some 0 : Option Nat) = some p → m.ply = nodePly stMain3 p + 1) ∧
      ((some 0 : Option Nat) = none → m.ply = stMain3.setUpPly)) ∧
    (∀ id s1,
      History.addMove oracleA stMain3 (.san "c5") (some 0) false false = .ok (id, s1) →
      plyInvariant s1 = true) :=
  ⟨by decide,
   (c4_ply_rule oracleA stMain3 (.san "c5") (some 0) false false (by decide)).1,
   (c4_ply_rule oracleA stMain3 (.san "c5") (some 0) false false (by decide)).2⟩

end JChess
